import Mathlib

/-!
# Verification of `unbounded`: an unbounded MPMC FIFO channel (Go)

Shallow embedding of `unbounded.go`.

* Heap objects (`chunk`, `waiter`) live in two heaps, modelled as lists; a
  pointer is an index into its heap, `nil` is `none`, and allocation appends
  at the end of the heap (the fresh address is the old length).
* The channel's own `sync.Mutex` serialises the critical sections; every
  operation is modelled as one atomic step (the body between `ch.Lock()` and
  `ch.Unlock()`), so an execution is a sequence of such steps.
* A `Receive` that finds the channel empty and open parks on its private
  waiter mutex.  It is modelled in two halves: `Receive` (up to the second
  `w.Lock()`, reporting `blocked w`) and `ReceiveWake` (the rest of the call,
  enabled once somebody has unlocked `w`).
* The waiter mutex is a boolean `locked`, together with the ghost counter
  `unlocks` of the `Unlock` calls performed on it.
-/

namespace unbounded

/-! ## Data model -/

/-- Length of `chunk.items` (`items [128]T`), i.e. `len(ch.tail.items)`. -/
def chunkCap : Nat := 128

/-- Go `type chunk[T any] struct { items [128]T; next *chunk[T] }`. -/
structure chunk (T : Type) where
  items : List T
  next : Option Nat
deriving DecidableEq

/-- Go `type waiter[T any] struct { sync.Mutex; dptr *T; next *waiter[T]; received bool }`.
`dptr` holds the contents of the receiver's local `value` that the pointer
refers to; `locked` is the embedded mutex; `unlocks` is ghost state counting
the `Unlock` calls on that mutex. -/
structure waiter (T : Type) where
  locked : Bool
  unlocks : Nat
  dptr : T
  next : Option Nat
  received : Bool
deriving DecidableEq

/-- Go `type unboundedChannel[T any] struct`, with the two heaps it points into. -/
structure unboundedChannel (T : Type) where
  chunks : List (chunk T)
  waiters : List (waiter T)
  head : Nat
  tail : Nat
  waitList : Option Nat
  lastWaiter : Option Nat
  headIndex : Nat
  tailIndex : Nat
  closed : Bool
deriving DecidableEq

/-- The composite literal `&chunk[T]{}`: all slots hold the zero value. -/
def emptyChunk (T : Type) [Inhabited T] : chunk T :=
  { items := List.replicate chunkCap default, next := none }

/-- Dereference of a chunk pointer. -/
def chunkAt {T : Type} [Inhabited T] (h : List (chunk T)) (p : Nat) : chunk T :=
  h.getD p (emptyChunk T)

/-- The composite literal `&waiter[T]{dptr: &value}` with `var value T`. -/
def emptyWaiter (T : Type) [Inhabited T] : waiter T :=
  { locked := false, unlocks := 0, dptr := default, next := none, received := false }

/-- Dereference of a waiter pointer. -/
def waiterAt {T : Type} [Inhabited T] (h : List (waiter T)) (p : Nat) : waiter T :=
  h.getD p (emptyWaiter T)

/-- `w.Unlock()` on the waiter at address `p`. -/
def unlockWaiter {T : Type} [Inhabited T] (h : List (waiter T)) (p : Nat) : List (waiter T) :=
  h.set p { waiterAt h p with locked := false, unlocks := (waiterAt h p).unlocks + 1 }

/-! ## Operations -/

/-- Go `New`: two chunks are allocated (addresses 0 and 1), then
`ch.head = ch.tail` makes both references point to the second one. -/
def New (T : Type) [Inhabited T] : unboundedChannel T :=
  { chunks := [emptyChunk T, emptyChunk T]
    waiters := []
    head := 1
    tail := 1
    waitList := none
    lastWaiter := none
    headIndex := 0
    tailIndex := 0
    closed := false }

/-- How a call of `Send` ends. -/
inductive SendOutcome where
  | done
  | panicked (msg : String)
deriving DecidableEq

/-- Go `Send`. -/
def Send {T : Type} [Inhabited T] (ch : unboundedChannel T) (value : T) :
    unboundedChannel T × SendOutcome :=
  if ch.closed then
    (ch, SendOutcome.panicked "writing into closed channel")
  else
    match ch.waitList with
    | some w =>
      let next := (waiterAt ch.waiters w).next
      let ch1 : unboundedChannel T :=
        match next with
        | some n => { ch with waitList := some n }
        | none => { ch with waitList := none, lastWaiter := none }
      -- `*w.dptr = value; w.received = true; w.Unlock()`
      let ws := ch1.waiters.set w { waiterAt ch1.waiters w with dptr := value, received := true }
      ({ ch1 with waiters := unlockWaiter ws w }, SendOutcome.done)
    | none =>
      let ch1 : unboundedChannel T :=
        if ch.tailIndex = chunkCap then
          let newChunk := ch.chunks.length
          { ch with
            chunks := (ch.chunks.set ch.tail { chunkAt ch.chunks ch.tail with next := some newChunk })
                        ++ [emptyChunk T]
            tail := newChunk
            tailIndex := 0 }
        else ch
      let t := chunkAt ch1.chunks ch1.tail
      ({ ch1 with
          chunks := ch1.chunks.set ch1.tail { t with items := t.items.set ch1.tailIndex value }
          tailIndex := ch1.tailIndex + 1 }, SendOutcome.done)

/-- How the first half of a `Receive` call ends: it returns `(value, ok)`, or
it has registered the waiter at address `w` and is parked on `w.Lock()`. -/
inductive RecvOutcome (T : Type) where
  | returned (value : T) (ok : Bool)
  | blocked (w : Nat)
deriving DecidableEq

/-- Go `Receive`, up to the point where it returns or parks. -/
def Receive {T : Type} [Inhabited T] (ch : unboundedChannel T) :
    unboundedChannel T × RecvOutcome T :=
  if ch.headIndex = ch.tailIndex ∧ ch.head = ch.tail ∧ ch.closed = false then
    -- reading in wait list
    let w := ch.waiters.length
    let ws := ch.waiters ++ [{ emptyWaiter T with locked := true }]
    let ch1 : unboundedChannel T :=
      match ch.lastWaiter with
      | none => { ch with waiters := ws, waitList := some w }
      | some l => { ch with waiters := ws.set l { waiterAt ws l with next := some w } }
    ({ ch1 with lastWaiter := some w }, RecvOutcome.blocked w)
  else
    -- reading from buffer
    let ind := ch.headIndex
    if ch.closed = true ∧ ind = ch.tailIndex ∧ ch.head = ch.tail then
      (ch, RecvOutcome.returned default false)
    else
      let value := (chunkAt ch.chunks ch.head).items.getD ind default
      let ind := ind + 1
      if ind = chunkCap then
        let ch1 : unboundedChannel T :=
          match (chunkAt ch.chunks ch.head).next with
          | some n => { ch with head := n }
          | none => ch
        ({ ch1 with headIndex := 0 }, RecvOutcome.returned value true)
      else
        ({ ch with headIndex := ind }, RecvOutcome.returned value true)

/-- Second half of a parked `Receive`: `w.Lock(); return value, w.received`.
It is `none` while the waiter's mutex is still held (the call stays parked). -/
def ReceiveWake {T : Type} [Inhabited T] (ch : unboundedChannel T) (w : Nat) :
    Option (unboundedChannel T × T × Bool) :=
  match ch.waiters.get? w with
  | none => none
  | some node =>
    if node.locked then none
    else some ({ ch with waiters := ch.waiters.set w { node with locked := true } },
               node.dptr, node.received)

/-- The loop `for ch.waitList != nil { ... }` of `Close`, with a bound on the
number of iterations; `none` means the bound was too small. -/
def CloseLoop {T : Type} [Inhabited T] : Nat → unboundedChannel T → Option (unboundedChannel T)
  | 0, ch =>
    match ch.waitList with
    | none => some ch
    | some _ => none
  | fuel + 1, ch =>
    match ch.waitList with
    | none => some ch
    | some w =>
      CloseLoop fuel
        { ch with waitList := (waiterAt ch.waiters w).next, waiters := unlockWaiter ch.waiters w }

/-- Go `Close`.  The loop is given as many iterations as there are waiters on
the heap. -/
def Close {T : Type} [Inhabited T] (ch : unboundedChannel T) : Option (unboundedChannel T) :=
  CloseLoop ch.waiters.length { ch with closed := true }

/-! ## Sequential executions -/

/-- One step of an execution: a call of `Send`, `Receive` or `Close`, or the
resumption of the parked `Receive` that owns waiter `w`. -/
inductive Op (T : Type) where
  | send (v : T)
  | receive
  | close
  | wake (w : Nat)
deriving DecidableEq

/-- What the caller observes of one step. -/
inductive Obs (T : Type) where
  | sendDone
  | sendPanicked (msg : String)
  | recv (value : T) (ok : Bool)
  | recvBlocked (w : Nat)
  | closeDone
  | woken (w : Nat) (value : T) (ok : Bool)
  | stillParked (w : Nat)
deriving DecidableEq

/-- An execution record: the channel, and ghost logs of the values whose
`Send` completed (`sent`), of the values handed to a receiver (`delivered`:
returned from the buffer with `ok = true`, or written into a parked
receiver's slot), and of the observations, all in execution order. -/
structure Exec (T : Type) where
  ch : unboundedChannel T
  sent : List T
  delivered : List T
  obs : List (Obs T)
deriving DecidableEq

/-- The execution that has only called `New`. -/
def Exec.init (T : Type) [Inhabited T] : Exec T :=
  { ch := New T, sent := [], delivered := [], obs := [] }

/-- Perform one step.  A panicking `Send` is observed and the execution goes
on (the caller recovers, as the test suite does).  The result is `none` only
if `Close` does not get through its loop. -/
def step {T : Type} [Inhabited T] (e : Exec T) : Op T → Option (Exec T)
  | Op.send v =>
    match Send e.ch v with
    | (ch1, SendOutcome.done) =>
      some { ch := ch1
             sent := e.sent ++ [v]
             delivered := if e.ch.waitList.isSome then e.delivered ++ [v] else e.delivered
             obs := e.obs ++ [Obs.sendDone] }
    | (ch1, SendOutcome.panicked msg) =>
      some { e with ch := ch1, obs := e.obs ++ [Obs.sendPanicked msg] }
  | Op.receive =>
    match Receive e.ch with
    | (ch1, RecvOutcome.returned value ok) =>
      some { e with
             ch := ch1
             delivered := if ok then e.delivered ++ [value] else e.delivered
             obs := e.obs ++ [Obs.recv value ok] }
    | (ch1, RecvOutcome.blocked w) =>
      some { e with ch := ch1, obs := e.obs ++ [Obs.recvBlocked w] }
  | Op.close =>
    match Close e.ch with
    | none => none
    | some ch1 => some { e with ch := ch1, obs := e.obs ++ [Obs.closeDone] }
  | Op.wake w =>
    match ReceiveWake e.ch w with
    | none => some { e with obs := e.obs ++ [Obs.stillParked w] }
    | some (ch1, value, ok) => some { e with ch := ch1, obs := e.obs ++ [Obs.woken w value ok] }

/-- Perform the steps `ops` in order, starting from `e`. -/
def runFrom {T : Type} [Inhabited T] : Exec T → List (Op T) → Option (Exec T)
  | e, [] => some e
  | e, op :: ops =>
    match step e op with
    | none => none
    | some e1 => runFrom e1 ops

/-- Perform the steps `ops` in order on a channel created by `New`. -/
def run {T : Type} [Inhabited T] (ops : List (Op T)) : Option (Exec T) :=
  runFrom (Exec.init T) ops

/-- The executions that some sequence of steps produces from `New`. -/
def ReachableExec {T : Type} [Inhabited T] (e : Exec T) : Prop :=
  ∃ ops : List (Op T), run ops = some e

/-- The channel states that some sequence of steps produces from `New`. -/
def Reachable {T : Type} [Inhabited T] (s : unboundedChannel T) : Prop :=
  ∃ e : Exec T, ReachableExec e ∧ e.ch = s

/-- The observations of `ops` run from `New` (`[]` if the run does not finish). -/
def observe {T : Type} [Inhabited T] (ops : List (Op T)) : List (Obs T) :=
  match run ops with
  | none => []
  | some e => e.obs

/-! ## Abstraction of the buffer -/

/-- Logical position of the consume cursor: slots before the head chunk, plus `headIndex`. -/
def headPos {T : Type} (ch : unboundedChannel T) : Nat :=
  chunkCap * (ch.head - 1) + ch.headIndex

/-- Logical position of the fill cursor: slots before the tail chunk, plus `tailIndex`. -/
def tailPos {T : Type} (ch : unboundedChannel T) : Nat :=
  chunkCap * (ch.tail - 1) + ch.tailIndex

/-- The slot at logical position `p` of the chain that starts at the chunk of address 1. -/
def slot {T : Type} [Inhabited T] (ch : unboundedChannel T) (p : Nat) : T :=
  (chunkAt ch.chunks (1 + p / chunkCap)).items.getD (p % chunkCap) default

/-- The slots between the consume cursor and the fill cursor, in order. -/
def pending {T : Type} [Inhabited T] (ch : unboundedChannel T) : List T :=
  (List.range' (headPos ch) (tailPos ch - headPos ch)).map (slot ch)

/-- Shape of the chunk chain: the chunks of addresses `1 .. tail` are linked in
address order, the tail is the newest chunk, the head lies on the chain, every
`items` array has `chunkCap` slots and the two indices are in range. -/
structure BufInv {T : Type} [Inhabited T] (ch : unboundedChannel T) : Prop where
  tail_last : ch.tail + 1 = ch.chunks.length
  head_pos : 1 ≤ ch.head
  head_le : ch.head ≤ ch.tail
  next_some : ∀ i, 1 ≤ i → i < ch.tail → (chunkAt ch.chunks i).next = some (i + 1)
  next_none : (chunkAt ch.chunks ch.tail).next = none
  items_len : ∀ i, i < ch.chunks.length → (chunkAt ch.chunks i).items.length = chunkCap
  headIndex_lt : ch.headIndex < chunkCap
  tailIndex_le : ch.tailIndex ≤ chunkCap
  index_le : ch.head = ch.tail → ch.headIndex ≤ ch.tailIndex

/-- The steps `Send(vs[0]); Send(vs[1]); ...`. -/
def sendOps {T : Type} (vs : List T) : List (Op T) :=
  vs.map Op.send

/-- The steps of `n` consecutive `Receive` calls. -/
def receiveOps (T : Type) (n : Nat) : List (Op T) :=
  List.replicate n Op.receive

/-! ## Abstraction of the wait list -/

/-- Walk the `next` pointers of the waiter heap `h` from `p`, for at most `fuel` nodes. -/
def chainFrom {T : Type} [Inhabited T] (h : List (waiter T)) : Nat → Option Nat → List Nat
  | 0, _ => []
  | _ + 1, none => []
  | fuel + 1, some w => w :: chainFrom h fuel (waiterAt h w).next

/-- The addresses of the waiters reachable from `ch.waitList`, oldest first. -/
def waitChain {T : Type} [Inhabited T] (ch : unboundedChannel T) : List Nat :=
  chainFrom ch.waiters ch.waiters.length ch.waitList

/-- Address of the oldest waiter on the wait list; the size of the waiter heap
when the list is empty. -/
def waitStart {T : Type} (ch : unboundedChannel T) : Nat :=
  match ch.waitList with
  | some a => a
  | none => ch.waiters.length

/-- A waiter that is registered and not yet resolved, at address `i` of a heap of size `n`. -/
def parkedWaiter (T : Type) [Inhabited T] (i n : Nat) : waiter T :=
  { locked := true, unlocks := 0, dptr := default,
    next := if i + 1 < n then some (i + 1) else none, received := false }

/-- Shape of the wait list: the waiters from `waitStart` to the end of the heap
are exactly the parked ones, linked in address order; the older ones have been
unlocked once, and those resolved without a value belong to a closed channel.
Waiters are parked only while the channel is open and the buffer is empty. -/
structure WaitInv {T : Type} [Inhabited T] (ch : unboundedChannel T) : Prop where
  head_lt : ∀ a, ch.waitList = some a → a < ch.waiters.length
  parked : ∀ i, waitStart ch ≤ i → i < ch.waiters.length →
    waiterAt ch.waiters i = parkedWaiter T i ch.waiters.length
  resolved : ∀ i, i < waitStart ch →
    (waiterAt ch.waiters i).unlocks = 1 ∧
    ((waiterAt ch.waiters i).received = false →
      ch.closed = true ∧ (waiterAt ch.waiters i).dptr = default)
  open_empty : ∀ a, ch.waitList = some a →
    ch.closed = false ∧ ch.headIndex = ch.tailIndex ∧ ch.head = ch.tail
  last : ch.closed = false →
    ch.lastWaiter = if ch.waitList = none then none else some (ch.waiters.length - 1)

/-- Invariant of executions: the chunk chain and the wait list are well
formed, every value sent has been delivered or is still pending in the buffer,
and once a receiver has been released without a value every value sent has
been delivered. -/
structure ExecInv {T : Type} [Inhabited T] (e : Exec T) : Prop where
  buf : BufInv e.ch
  wait : WaitInv e.ch
  conserved : e.sent.Sublist (e.delivered ++ pending e.ch)
  drained : ∀ i, i < waitStart e.ch → (waiterAt e.ch.waiters i).received = false →
    e.sent.Sublist e.delivered

/-! ## Concrete executions used as examples -/

/-- One value sent, the channel closed, the value received: closed and drained. -/
def drainedExample : Exec Nat :=
  (run [Op.send 7, Op.close, Op.receive]).getD (Exec.init Nat)

/-- Two receivers parked on an empty open channel. -/
def parkedExample : Exec Nat :=
  (run [Op.receive, Op.receive]).getD (Exec.init Nat)

/-- The values `1, 2, ..., 128`: exactly one chunk. -/
def oneChunk : List Nat :=
  List.range' 1 128

/-! ## Lemmas and theorems -/

variable {T : Type} [Inhabited T]

theorem getD_set_ite {α : Type} (l : List α) (i j : Nat) (x d : α) :
    (l.set i x).getD j d = if i = j ∧ i < l.length then x else l.getD j d := by
  simp only [List.getD_eq_getElem?_getD, List.getElem?_set]
  by_cases h : i = j
  · subst h
    by_cases h2 : i < l.length
    · simp [h2]
    · have h3 : l[i]? = none := List.getElem?_eq_none (by omega)
      simp [h2, h3]
  · simp [h]

theorem getD_append_single {α : Type} (l : List α) (j : Nat) (x d : α) :
    (l ++ [x]).getD j d = if j < l.length then l.getD j d else if j = l.length then x else d := by
  simp only [List.getD_eq_getElem?_getD]
  by_cases h : j < l.length
  · simp [h, List.getElem?_append_left]
  · by_cases h2 : j = l.length
    · subst h2; simp
    · have : l.length + 1 ≤ j := by omega
      simp [h, h2, List.getElem?_eq_none, this]

theorem chunkAt_set (h : List (chunk T)) (i j : Nat) (c : chunk T) :
    chunkAt (h.set i c) j = if i = j ∧ i < h.length then c else chunkAt h j := by
  unfold chunkAt; exact getD_set_ite _ _ _ _ _

theorem chunkAt_append (h : List (chunk T)) (j : Nat) (c : chunk T) :
    chunkAt (h ++ [c]) j = if j < h.length then chunkAt h j else if j = h.length then c else emptyChunk T := by
  unfold chunkAt; exact getD_append_single _ _ _ _

theorem waiterAt_set (h : List (waiter T)) (i j : Nat) (c : waiter T) :
    waiterAt (h.set i c) j = if i = j ∧ i < h.length then c else waiterAt h j := by
  unfold waiterAt; exact getD_set_ite _ _ _ _ _

theorem waiterAt_append (h : List (waiter T)) (j : Nat) (c : waiter T) :
    waiterAt (h ++ [c]) j = if j < h.length then waiterAt h j else if j = h.length then c else emptyWaiter T := by
  unfold waiterAt; exact getD_append_single _ _ _ _


theorem emptyChunk_items_length : (emptyChunk T).items.length = chunkCap := by
  simp [emptyChunk]

theorem emptyChunk_next : (emptyChunk T).next = none := rfl

theorem BufInv_New : BufInv (New T) := by
  constructor
  · rfl
  · exact Nat.le_refl 1
  · exact Nat.le_refl 1
  · intro i h1 h2
    have : (New T).tail = 1 := rfl
    omega
  · rfl
  · intro i hi
    have hl : (New T).chunks.length = 2 := rfl
    have : i = 0 ∨ i = 1 := by omega
    rcases this with e | e <;> subst e <;> exact emptyChunk_items_length
  · show 0 < chunkCap
    decide
  · exact Nat.zero_le _
  · intro _; exact Nat.le_refl _

theorem headPos_le_tailPos {ch : unboundedChannel T} (h : BufInv ch) : headPos ch ≤ tailPos ch := by
  have h1 := h.head_pos; have h2 := h.head_le; have h3 := h.headIndex_lt
  have h4 := h.tailIndex_le; have h5 := h.index_le
  simp only [headPos, tailPos, chunkCap] at *
  by_cases e : ch.head = ch.tail
  · have := h5 e; rw [e]; omega
  · omega

theorem headPos_eq_tailPos_iff {ch : unboundedChannel T} (h : BufInv ch) :
    headPos ch = tailPos ch ↔ (ch.headIndex = ch.tailIndex ∧ ch.head = ch.tail) := by
  have h1 := h.head_pos; have h2 := h.head_le; have h3 := h.headIndex_lt
  have h4 := h.tailIndex_le; have h5 := h.index_le
  simp only [headPos, tailPos, chunkCap] at *
  constructor
  · intro e
    by_cases e2 : ch.head = ch.tail
    · rw [e2] at e; exact ⟨by omega, e2⟩
    · omega
  · rintro ⟨e1, e2⟩; rw [e1, e2]

theorem pending_eq_nil_iff {ch : unboundedChannel T} (h : BufInv ch) :
    pending ch = [] ↔ (ch.headIndex = ch.tailIndex ∧ ch.head = ch.tail) := by
  rw [← headPos_eq_tailPos_iff h]
  have := headPos_le_tailPos h
  simp only [pending, List.map_eq_nil_iff, List.range'_eq_nil]
  omega

theorem slot_headPos {ch : unboundedChannel T} (h : BufInv ch) :
    slot ch (headPos ch) = (chunkAt ch.chunks ch.head).items.getD ch.headIndex default := by
  have h1 := h.head_pos; have h3 := h.headIndex_lt
  simp only [slot, headPos, chunkCap] at *
  have e1 : 1 + (128 * (ch.head - 1) + ch.headIndex) / 128 = ch.head := by omega
  have e2 : (128 * (ch.head - 1) + ch.headIndex) % 128 = ch.headIndex := by omega
  rw [e1, e2]

theorem pending_cons {ch : unboundedChannel T} (h : headPos ch < tailPos ch) :
    pending ch = slot ch (headPos ch) ::
      (List.range' (headPos ch + 1) (tailPos ch - (headPos ch + 1))).map (slot ch) := by
  unfold pending
  have : tailPos ch - headPos ch = (tailPos ch - (headPos ch + 1)) + 1 := by omega
  rw [this, List.range'_succ]
  simp

/-- Receive on a non-empty buffer. -/
theorem Receive_buffer {ch : unboundedChannel T} (h : BufInv ch) {v : T} {rest : List T}
    (hp : pending ch = v :: rest) :
    ∃ ch', Receive ch = (ch', RecvOutcome.returned v true) ∧ BufInv ch' ∧
      ch'.chunks = ch.chunks ∧ ch'.waiters = ch.waiters ∧ ch'.tail = ch.tail ∧
      ch'.tailIndex = ch.tailIndex ∧ ch'.waitList = ch.waitList ∧
      ch'.lastWaiter = ch.lastWaiter ∧ ch'.closed = ch.closed ∧
      (pending ch' = rest ∨ rest = []) := by
  have hne : ¬ (ch.headIndex = ch.tailIndex ∧ ch.head = ch.tail) := by
    rw [← pending_eq_nil_iff h, hp]; simp
  have hlt : headPos ch < tailPos ch := by
    have := headPos_le_tailPos h
    have := (headPos_eq_tailPos_iff h).not.mpr hne
    omega
  rw [pending_cons hlt] at hp
  injection hp with hv hrest
  rw [slot_headPos h] at hv
  have h1 := h.head_pos; have h2 := h.head_le; have h3 := h.headIndex_lt
  have h4 := h.tailIndex_le; have h5 := h.index_le
  have c1 : ¬ (ch.headIndex = ch.tailIndex ∧ ch.head = ch.tail ∧ ch.closed = false) :=
    fun c => hne ⟨c.1, c.2.1⟩
  have c2 : ¬ (ch.closed = true ∧ ch.headIndex = ch.tailIndex ∧ ch.head = ch.tail) :=
    fun c => hne c.2
  unfold Receive
  rw [if_neg c1]
  simp only []
  rw [if_neg c2, hv]
  by_cases hc : ch.headIndex + 1 = chunkCap
  · rw [if_pos hc]
    by_cases ht : ch.head = ch.tail
    · -- the head chunk is also the tail chunk: the cursor wraps
      have hn : (chunkAt ch.chunks ch.head).next = none := by rw [ht]; exact h.next_none
      rw [hn]
      refine ⟨_, rfl, ?_, rfl, rfl, rfl, rfl, rfl, rfl, rfl, Or.inr ?_⟩
      · constructor <;> simp only [] <;> first | exact h.tail_last | exact h.head_pos | exact h.head_le | exact h.next_some | exact h.next_none | exact h.items_len | exact h.tailIndex_le | skip
        · simp [chunkCap]
        · intro _; exact Nat.zero_le _
      · rw [← hrest]
        have := h5 ht
        simp only [headPos, tailPos, chunkCap, ht] at *
        have : 128 * (ch.tail - 1) + ch.tailIndex - (128 * (ch.tail - 1) + ch.headIndex + 1) = 0 := by omega
        rw [this]; rfl
    · have hn : (chunkAt ch.chunks ch.head).next = some (ch.head + 1) :=
        h.next_some _ h1 (by omega)
      rw [hn]
      refine ⟨_, rfl, ?_, rfl, rfl, rfl, rfl, rfl, rfl, rfl, Or.inl ?_⟩
      · constructor <;> simp only [] <;> first | exact h.tail_last | exact h.next_some | exact h.next_none | exact h.items_len | exact h.tailIndex_le | skip
        · omega
        · omega
        · simp [chunkCap]
        · intro _; exact Nat.zero_le _
      · rw [← hrest]
        simp only [pending, headPos, tailPos, slot, chunkCap] at *
        have : 128 * (ch.head + 1 - 1) + 0 = 128 * (ch.head - 1) + ch.headIndex + 1 := by omega
        rw [this]
        rfl
  · rw [if_neg hc]
    refine ⟨_, rfl, ?_, rfl, rfl, rfl, rfl, rfl, rfl, rfl, Or.inl ?_⟩
    · constructor <;> simp only [] <;> first | exact h.tail_last | exact h.head_pos | exact h.head_le | exact h.next_some | exact h.next_none | exact h.items_len | exact h.tailIndex_le | skip
      · simp only [chunkCap] at *; omega
      · intro ht
        have := h5 ht
        have : ch.headIndex ≠ ch.tailIndex := fun e => hne ⟨e, ht⟩
        omega
    · rw [← hrest]
      simp only [pending, headPos, tailPos, slot, chunkCap] at *
      rfl

theorem pending_snoc (ch : unboundedChannel T) {ch' : unboundedChannel T} {v : T}
    (hh : headPos ch' = headPos ch) (ht : tailPos ch' = tailPos ch + 1)
    (hle : headPos ch ≤ tailPos ch)
    (hs : ∀ p, p < tailPos ch → slot ch' p = slot ch p) (hv : slot ch' (tailPos ch) = v) :
    pending ch' = pending ch ++ [v] := by
  unfold pending
  rw [hh, ht]
  have e : tailPos ch + 1 - headPos ch = (tailPos ch - headPos ch) + 1 := by omega
  rw [e, List.range'_1_concat, List.map_append]
  congr 1
  · apply List.map_congr_left
    intro p hp
    rw [List.mem_range'_1] at hp
    exact hs p (by omega)
  · have : headPos ch + (tailPos ch - headPos ch) = tailPos ch := by omega
    simp [this, hv]

theorem getD_set_self {α : Type} (l : List α) (i : Nat) (x d : α) (h : i < l.length) :
    (l.set i x).getD i d = x := by
  rw [getD_set_ite]; simp [h]

/-- Send on an open channel nobody is waiting on appends to the buffer. -/
theorem Send_buffer {ch : unboundedChannel T} (h : BufInv ch) (hc : ch.closed = false)
    (hw : ch.waitList = none) (v : T) :
    ∃ ch', Send ch v = (ch', SendOutcome.done) ∧ BufInv ch' ∧
      ch'.waiters = ch.waiters ∧ ch'.head = ch.head ∧ ch'.headIndex = ch.headIndex ∧
      ch'.waitList = ch.waitList ∧ ch'.lastWaiter = ch.lastWaiter ∧ ch'.closed = ch.closed ∧
      pending ch' = pending ch ++ [v] := by
  have h0 := h.tail_last
  have h1 := h.head_pos; have h2 := h.head_le; have h3 := h.headIndex_lt
  have h4 := h.tailIndex_le; have h5 := h.index_le
  have hle := headPos_le_tailPos h
  unfold Send
  simp only [hc, hw, Bool.false_eq_true, if_false]
  by_cases hfull : ch.tailIndex = chunkCap
  · -- the tail chunk is full: a new chunk is linked behind it
    simp only [hfull, if_true]
    have hlen : ((ch.chunks.set ch.tail { chunkAt ch.chunks ch.tail with next := some ch.chunks.length })
        ++ [emptyChunk T]).length = ch.chunks.length + 1 := by simp
    have hnew : chunkAt ((ch.chunks.set ch.tail { chunkAt ch.chunks ch.tail with next := some ch.chunks.length })
        ++ [emptyChunk T]) ch.chunks.length = emptyChunk T := by
      rw [chunkAt_append]; simp
    rw [hnew]
    have hat : ∀ i, chunkAt (((ch.chunks.set ch.tail { chunkAt ch.chunks ch.tail with next := some ch.chunks.length })
        ++ [emptyChunk T]).set ch.chunks.length
          { emptyChunk T with items := (emptyChunk T).items.set 0 v }) i =
        if i = ch.chunks.length then { emptyChunk T with items := (emptyChunk T).items.set 0 v }
        else if i = ch.tail then { chunkAt ch.chunks ch.tail with next := some ch.chunks.length }
        else if i < ch.chunks.length then chunkAt ch.chunks i else emptyChunk T := by
      intro i
      rw [chunkAt_set, hlen, chunkAt_append, List.length_set, chunkAt_set]
      by_cases e1 : i = ch.chunks.length
      · simp [e1]
      · by_cases e2 : i = ch.tail
        · have t1 : ch.tail < ch.chunks.length := by omega
          have t2 : ¬ ch.tail = ch.chunks.length := by omega
          have t3 : ¬ ch.chunks.length = ch.tail := by omega
          simp [e2, t1, t2, t3]
        · by_cases e3 : i < ch.chunks.length
          · simp [e3, Ne.symm e1, Ne.symm e2, e1, e2]
          · simp [e3, Ne.symm e1, e1, e2]
    refine ⟨_, rfl, ?_, rfl, rfl, rfl, rfl, rfl, rfl, ?_⟩
    · constructor <;> simp only []
      · simp
      · exact h1
      · omega
      · intro i hi1 hi2
        rw [hat]
        by_cases e2 : i = ch.tail
        · have t2 : ¬ ch.tail = ch.chunks.length := by omega
          simp only [e2, t2, if_false, if_true]
          congr 1; omega
        · have e1 : i ≠ ch.chunks.length := by omega
          have e3 : i < ch.chunks.length := by omega
          simp only [e1, e2, e3, if_false, if_true]
          exact h.next_some i hi1 (by omega)
      · rw [hat]; simp only [if_true]; rfl
      · intro i hi
        rw [hat]
        have hi' : i < ch.chunks.length + 1 := by simpa using hi
        by_cases e1 : i = ch.chunks.length
        · simp only [e1, if_true, List.length_set]; exact emptyChunk_items_length
        · by_cases e2 : i = ch.tail
          · have t2 : ¬ ch.tail = ch.chunks.length := by omega
            simp only [e2, t2, if_false, if_true]
            exact h.items_len _ (by omega)
          · have e3 : i < ch.chunks.length := by omega
            simp only [e1, e2, e3, if_false, if_true]
            exact h.items_len _ e3
      · exact h3
      · simp [chunkCap]
      · intro e; omega
    · apply pending_snoc ch _ _ hle
      · intro p hp
        simp only [slot]
        rw [hat]
        have q1 : 1 + p / chunkCap ≠ ch.chunks.length := by
          simp only [tailPos, chunkCap, hfull] at *; omega
        by_cases q2 : 1 + p / chunkCap = ch.tail
        · have t2 : ¬ ch.tail = ch.chunks.length := by omega
          simp only [q2, t2, if_false, if_true]
        · have q3 : 1 + p / chunkCap < ch.chunks.length := by
            simp only [tailPos, chunkCap, hfull] at *; omega
          simp only [q1, q2, q3, if_false, if_true]
      · simp only [slot]
        rw [hat]
        have q1 : 1 + tailPos ch / chunkCap = ch.chunks.length := by
          simp only [tailPos, chunkCap, hfull] at *; omega
        have q2 : tailPos ch % chunkCap = 0 := by
          simp only [tailPos, chunkCap, hfull] at *; omega
        simp only [q1, q2, if_true]
        apply getD_set_self
        rw [emptyChunk_items_length]; decide
      · simp only [headPos]
      · simp only [tailPos, chunkCap, hfull] at *; omega
  · simp only [hfull, if_false]
    have hti : ch.tailIndex < chunkCap := by omega
    have hat : ∀ i, chunkAt (ch.chunks.set ch.tail
          { chunkAt ch.chunks ch.tail with
            items := (chunkAt ch.chunks ch.tail).items.set ch.tailIndex v }) i =
        if i = ch.tail then { chunkAt ch.chunks ch.tail with
            items := (chunkAt ch.chunks ch.tail).items.set ch.tailIndex v }
        else chunkAt ch.chunks i := by
      intro i
      rw [chunkAt_set]
      by_cases e2 : i = ch.tail
      · have : ch.tail < ch.chunks.length := by omega
        simp [e2, this]
      · simp [Ne.symm e2, e2]
    refine ⟨_, rfl, ?_, rfl, rfl, rfl, hw, rfl, hc, ?_⟩
    · constructor <;> simp only []
      · simp; omega
      · exact h1
      · exact h2
      · intro i hi1 hi2
        rw [hat]
        have : i ≠ ch.tail := by omega
        simp only [this, if_false]
        exact h.next_some i hi1 hi2
      · rw [hat]; simp only [if_true]; exact h.next_none
      · intro i hi
        rw [hat]
        simp only [List.length_set] at hi
        by_cases e2 : i = ch.tail
        · simp only [e2, if_true, List.length_set]
          exact h.items_len _ (by omega)
        · simp only [e2, if_false]
          exact h.items_len _ hi
      · exact h3
      · omega
      · intro e; have := h5 e; omega
    · apply pending_snoc ch _ _ hle
      · intro p hp
        simp only [slot]
        rw [hat]
        by_cases q2 : 1 + p / chunkCap = ch.tail
        · simp only [q2, if_true]
          rw [getD_set_ite]
          have : ¬ (ch.tailIndex = p % chunkCap ∧ ch.tailIndex < (chunkAt ch.chunks ch.tail).items.length) := by
            intro c
            simp only [tailPos, chunkCap] at *; omega
          rw [if_neg this]
        · simp only [q2, if_false]
      · simp only [slot]
        rw [hat]
        have q1 : 1 + tailPos ch / chunkCap = ch.tail := by
          simp only [tailPos, chunkCap] at *; omega
        have q2 : tailPos ch % chunkCap = ch.tailIndex := by
          simp only [tailPos, chunkCap] at *; omega
        simp only [q1, q2, if_true]
        apply getD_set_self
        rw [h.items_len _ (by omega)]; exact hti
      · simp only [headPos]
      · simp only [tailPos, chunkCap] at *; omega

theorem runFrom_append (e : Exec T) (a b : List (Op T)) :
    runFrom e (a ++ b) = (runFrom e a).bind (fun e1 => runFrom e1 b) := by
  induction a generalizing e with
  | nil => rfl
  | cons op ops ih =>
    simp only [List.cons_append, runFrom]
    cases step e op with
    | none => rfl
    | some e1 => exact ih e1

theorem step_send_done {e : Exec T} {v : T} {ch' : unboundedChannel T}
    (h : Send e.ch v = (ch', SendOutcome.done)) :
    step e (Op.send v) = some
      { ch := ch'
        sent := e.sent ++ [v]
        delivered := if e.ch.waitList.isSome then e.delivered ++ [v] else e.delivered
        obs := e.obs ++ [Obs.sendDone] } := by
  simp only [step, h]

theorem step_receive_returned {e : Exec T} {v : T} {ok : Bool} {ch' : unboundedChannel T}
    (h : Receive e.ch = (ch', RecvOutcome.returned v ok)) :
    step e Op.receive = some
      { e with
        ch := ch'
        delivered := if ok then e.delivered ++ [v] else e.delivered
        obs := e.obs ++ [Obs.recv v ok] } := by
  simp only [step, h]

theorem step_receive_blocked {e : Exec T} {w : Nat} {ch' : unboundedChannel T}
    (h : Receive e.ch = (ch', RecvOutcome.blocked w)) :
    step e Op.receive = some { e with ch := ch', obs := e.obs ++ [Obs.recvBlocked w] } := by
  simp only [step, h]

theorem step_close {e : Exec T} {ch' : unboundedChannel T} (h : Close e.ch = some ch') :
    step e Op.close = some { e with ch := ch', obs := e.obs ++ [Obs.closeDone] } := by
  simp only [step, h]

/-- Sending a list of values to an open channel nobody is waiting on. -/
theorem runFrom_sendOps (vs : List T) : ∀ e : Exec T, BufInv e.ch → e.ch.closed = false →
    e.ch.waitList = none →
    ∃ e', runFrom e (sendOps vs) = some e' ∧ BufInv e'.ch ∧ e'.ch.closed = false ∧
      e'.ch.waitList = none ∧ e'.ch.waiters = e.ch.waiters ∧
      e'.ch.lastWaiter = e.ch.lastWaiter ∧
      pending e'.ch = pending e.ch ++ vs ∧
      e'.obs = e.obs ++ vs.map (fun _ => Obs.sendDone) ∧
      e'.sent = e.sent ++ vs ∧ e'.delivered = e.delivered := by
  induction vs with
  | nil =>
    intro e h hc hw
    exact ⟨e, rfl, h, hc, hw, rfl, rfl, by simp, by simp, by simp, rfl⟩
  | cons v vs ih =>
    intro e h hc hw
    obtain ⟨ch', hS, hI, hws, _, _, hwl, hlw, hcl, hp⟩ := Send_buffer h hc hw v
    have hstep := step_send_done hS
    obtain ⟨e', hr, hI', hc', hw', hws', hlw', hp', ho', hs', hd'⟩ :=
      ih { ch := ch'
           sent := e.sent ++ [v]
           delivered := if e.ch.waitList.isSome then e.delivered ++ [v] else e.delivered
           obs := e.obs ++ [Obs.sendDone] }
        hI (by rw [hcl, hc]) (by rw [hwl, hw])
    refine ⟨e', ?_, hI', hc', hw', ?_, ?_, ?_, ?_, ?_, ?_⟩
    · simp only [sendOps, List.map_cons, runFrom, hstep]
      exact hr
    · rw [hws']; exact hws
    · rw [hlw']; exact hlw
    · rw [hp']; simp only [hp]; simp
    · rw [ho']; simp
    · rw [hs']; simp
    · rw [hd']; simp [hw]

/-- Receiving as many values as the buffer is known to hold. -/
theorem runFrom_receiveOps (vs : List T) : ∀ (more : List T) (e : Exec T), BufInv e.ch →
    pending e.ch = vs ++ more →
    ∃ e', runFrom e (receiveOps T vs.length) = some e' ∧ BufInv e'.ch ∧
      e'.ch.closed = e.ch.closed ∧ e'.ch.waitList = e.ch.waitList ∧
      e'.ch.waiters = e.ch.waiters ∧ e'.ch.lastWaiter = e.ch.lastWaiter ∧
      e'.ch.chunks = e.ch.chunks ∧ e'.ch.tail = e.ch.tail ∧ e'.ch.tailIndex = e.ch.tailIndex ∧
      e'.obs = e.obs ++ vs.map (fun v => Obs.recv v true) ∧
      e'.sent = e.sent ∧ e'.delivered = e.delivered ++ vs := by
  induction vs with
  | nil =>
    intro more e h _
    exact ⟨e, rfl, h, rfl, rfl, rfl, rfl, rfl, rfl, rfl, by simp, rfl, by simp⟩
  | cons v vs ih =>
    intro more e h hp
    obtain ⟨ch', hR, hI, hch, hws, ht, hti, hwl, hlw, hcl, hp'⟩ :=
      Receive_buffer h (show pending e.ch = v :: (vs ++ more) from hp)
    have hstep := step_receive_returned hR
    rcases hp' with hp' | hp'
    · obtain ⟨e', hr, hI', hc', hw', hws', hlw', hch', ht', hti', ho', hs', hd'⟩ :=
        ih more { e with ch := ch', delivered := e.delivered ++ [v],
                         obs := e.obs ++ [Obs.recv v true] } hI hp'
      refine ⟨e', ?_, hI', ?_, ?_, ?_, ?_, ?_, ?_, ?_, ?_, ?_, ?_⟩
      · simp only [receiveOps, List.length_cons, List.replicate_succ, runFrom, hstep,
          if_true]
        exact hr
      · rw [hc']; exact hcl
      · rw [hw']; exact hwl
      · rw [hws']; exact hws
      · rw [hlw']; exact hlw
      · rw [hch']; exact hch
      · rw [ht']; exact ht
      · rw [hti']; exact hti
      · rw [ho']; simp
      · rw [hs']
      · rw [hd']; simp
    · have hv : vs = [] := (List.append_eq_nil.mp hp').1
      subst hv
      refine ⟨{ e with ch := ch', delivered := e.delivered ++ [v],
                       obs := e.obs ++ [Obs.recv v true] },
        ?_, hI, hcl, hwl, hws, hlw, hch, ht, hti, ?_, rfl, ?_⟩
      · simp only [receiveOps, List.length_cons, List.length_nil, List.replicate_succ,
          List.replicate_zero, runFrom, hstep, if_true]
      · simp
      · simp

theorem BufInv_congr {ch ch' : unboundedChannel T} (h : BufInv ch)
    (e1 : ch'.chunks = ch.chunks) (e2 : ch'.head = ch.head) (e3 : ch'.tail = ch.tail)
    (e4 : ch'.headIndex = ch.headIndex) (e5 : ch'.tailIndex = ch.tailIndex) : BufInv ch' := by
  constructor
  · rw [e1, e3]; exact h.tail_last
  · rw [e2]; exact h.head_pos
  · rw [e2, e3]; exact h.head_le
  · rw [e1, e3]; exact h.next_some
  · rw [e1, e3]; exact h.next_none
  · rw [e1]; exact h.items_len
  · rw [e4]; exact h.headIndex_lt
  · rw [e5]; exact h.tailIndex_le
  · rw [e2, e3, e4, e5]; exact h.index_le

theorem pending_congr {ch ch' : unboundedChannel T}
    (e1 : ch'.chunks = ch.chunks) (e2 : ch'.head = ch.head) (e3 : ch'.tail = ch.tail)
    (e4 : ch'.headIndex = ch.headIndex) (e5 : ch'.tailIndex = ch.tailIndex) :
    pending ch' = pending ch := by
  have : slot ch' = slot ch := by
    funext p; simp only [slot, e1]
  simp only [pending, headPos, tailPos, e2, e3, e4, e5, this]

theorem pending_New : pending (New T) = [] := by
  rw [pending_eq_nil_iff BufInv_New]
  exact ⟨rfl, rfl⟩

theorem CloseLoop_none (fuel : Nat) {ch : unboundedChannel T} (hw : ch.waitList = none) :
    CloseLoop fuel ch = some ch := by
  cases fuel <;> simp [CloseLoop, hw]

/-- Close when nobody is waiting only sets the flag. -/
theorem Close_no_waiters {ch : unboundedChannel T} (hw : ch.waitList = none) :
    Close ch = some { ch with closed := true } := by
  unfold Close
  exact CloseLoop_none _ hw

/-- **C1**: FIFO for sends followed by receives.  For every list `vs` of values
(of any length, so chunk boundaries are crossed), sending the elements of `vs`
in order to a channel created by `New` and then calling `Receive`
`vs.length` times succeeds, every `Send` completes, and the receives return
`(vs[0], true), (vs[1], true), ...` in exactly that order. -/
theorem C1_fifo_sends_then_receives (vs : List T) :
    ∃ e : Exec T, run (sendOps vs ++ receiveOps T vs.length) = some e ∧
      e.obs = vs.map (fun _ => Obs.sendDone) ++ vs.map (fun v => Obs.recv v true) := by
  obtain ⟨e1, hr1, hI1, _, _, _, _, hp1, ho1, _, _⟩ :=
    runFrom_sendOps vs (Exec.init T) BufInv_New rfl rfl
  have hp : pending e1.ch = vs ++ [] := by
    rw [hp1]
    show pending (New T) ++ vs = vs ++ []
    rw [pending_New]; simp
  obtain ⟨e2, hr2, _, _, _, _, _, _, _, _, ho2, _, _⟩ := runFrom_receiveOps vs [] e1 hI1 hp
  refine ⟨e2, ?_, ?_⟩
  · unfold run
    rw [runFrom_append, hr1]
    exact hr2
  · rw [ho2, ho1]
    show [] ++ _ ++ _ = _
    simp

/-- **C4**: Close keeps the buffered values.  For every list `vs` sent to a
channel created by `New` and followed by `Close`, the next `vs.length` calls
of `Receive` return `(vs[0], true), ..., (vs[N-1], true)` in send order. -/
theorem C4_close_keeps_buffered_values (vs : List T) :
    ∃ e : Exec T, run (sendOps vs ++ [Op.close] ++ receiveOps T vs.length) = some e ∧
      e.ch.closed = true ∧
      e.obs = vs.map (fun _ => Obs.sendDone) ++ [Obs.closeDone]
                ++ vs.map (fun v => Obs.recv v true) := by
  obtain ⟨e1, hr1, hI1, _, hw1, _, _, hp1, ho1, _, _⟩ :=
    runFrom_sendOps vs (Exec.init T) BufInv_New rfl rfl
  have hcl := @step_close T _ e1 _ (Close_no_waiters hw1)
  have hI2 : BufInv ({ e1.ch with closed := true }) := BufInv_congr hI1 rfl rfl rfl rfl rfl
  have hp : pending ({ e1.ch with closed := true }) = vs ++ [] := by
    have e0 : pending ({ e1.ch with closed := true }) = pending e1.ch :=
      pending_congr rfl rfl rfl rfl rfl
    rw [e0, hp1]
    show pending (New T) ++ vs = vs ++ []
    rw [pending_New]; simp
  obtain ⟨e3, hr3, _, hc3, _, _, _, _, _, _, ho3, _, _⟩ :=
    runFrom_receiveOps vs []
      { e1 with ch := { e1.ch with closed := true }, obs := e1.obs ++ [Obs.closeDone] } hI2 hp
  refine ⟨e3, ?_, ?_, ?_⟩
  · unfold run
    rw [runFrom_append, runFrom_append, hr1]
    simp only [Option.bind, runFrom, hcl]
    exact hr3
  · rw [hc3]
  · rw [ho3]
    simp only [ho1]
    show ([] ++ _ ++ _) ++ _ = _
    simp

omit [Inhabited T] in
theorem waitStart_some {ch : unboundedChannel T} {a : Nat} (h : ch.waitList = some a) :
    waitStart ch = a := by
  simp [waitStart, h]

omit [Inhabited T] in
theorem waitStart_none {ch : unboundedChannel T} (h : ch.waitList = none) :
    waitStart ch = ch.waiters.length := by
  simp [waitStart, h]

theorem waitStart_le {ch : unboundedChannel T} (h : WaitInv ch) :
    waitStart ch ≤ ch.waiters.length := by
  cases hw : ch.waitList with
  | none => rw [waitStart_none hw]
  | some a => rw [waitStart_some hw]; exact Nat.le_of_lt (h.head_lt a hw)

theorem waiterAt_unlockWaiter (h : List (waiter T)) (p i : Nat) :
    waiterAt (unlockWaiter h p) i =
      if p = i ∧ p < h.length then
        { waiterAt h p with locked := false, unlocks := (waiterAt h p).unlocks + 1 }
      else waiterAt h i := by
  unfold unlockWaiter
  rw [waiterAt_set]

theorem length_unlockWaiter (h : List (waiter T)) (p : Nat) :
    (unlockWaiter h p).length = h.length := by
  simp [unlockWaiter]

theorem WaitInv_New : WaitInv (New T) := by
  constructor
  · intro a h; cases h
  · intro i _ h; exact absurd h (Nat.not_lt_zero _)
  · intro i h; exact absurd h (Nat.not_lt_zero _)
  · intro a h; cases h
  · intro _; rfl

/-- A change that leaves the wait list, the waiter heap, the closed flag and
the emptiness test alone keeps the wait-list invariant. -/
theorem WaitInv_congr {ch ch' : unboundedChannel T} (h : WaitInv ch)
    (e1 : ch'.waiters = ch.waiters) (e2 : ch'.waitList = ch.waitList)
    (e3 : ch'.lastWaiter = ch.lastWaiter) (e4 : ch'.closed = ch.closed)
    (e5 : ∀ a, ch.waitList = some a → ch'.headIndex = ch'.tailIndex ∧ ch'.head = ch'.tail) :
    WaitInv ch' := by
  have ws : waitStart ch' = waitStart ch := by simp only [waitStart, e1, e2]
  constructor
  · rw [e1, e2]; exact h.head_lt
  · rw [ws, e1]; exact h.parked
  · rw [ws, e1, e4]; exact h.resolved
  · intro a ha
    rw [e2] at ha
    exact ⟨by rw [e4]; exact (h.open_empty a ha).1, e5 a ha⟩
  · rw [e1, e2, e3, e4]; exact h.last

/-- Send on an open channel with a parked receiver hands the value to the oldest one. -/
theorem Send_handoff {ch : unboundedChannel T} (h : WaitInv ch) (hc : ch.closed = false)
    {a : Nat} (hw : ch.waitList = some a) (v : T) :
    ∃ ch', Send ch v = (ch', SendOutcome.done) ∧ WaitInv ch' ∧
      ch'.chunks = ch.chunks ∧ ch'.head = ch.head ∧ ch'.tail = ch.tail ∧
      ch'.headIndex = ch.headIndex ∧ ch'.tailIndex = ch.tailIndex ∧ ch'.closed = false ∧
      ch'.waiters.length = ch.waiters.length ∧ waitStart ch' = a + 1 ∧
      waiterAt ch'.waiters a =
        { locked := false, unlocks := 1, dptr := v,
          next := if a + 1 < ch.waiters.length then some (a + 1) else none, received := true } ∧
      ∀ i, i ≠ a → waiterAt ch'.waiters i = waiterAt ch.waiters i := by
  have ha := h.head_lt a hw
  have hs := waitStart_some hw
  have hpa := h.parked a (by rw [hs]) ha
  have hoe := h.open_empty a hw
  -- the waiter heap after `*w.dptr = value; w.received = true; w.Unlock()`
  have hlen : (unlockWaiter (ch.waiters.set a
      { waiterAt ch.waiters a with dptr := v, received := true }) a).length = ch.waiters.length := by
    rw [length_unlockWaiter, List.length_set]
  have hat : ∀ i, waiterAt (unlockWaiter (ch.waiters.set a
      { waiterAt ch.waiters a with dptr := v, received := true }) a) i =
      if i = a then
        { locked := false, unlocks := 1, dptr := v,
          next := if a + 1 < ch.waiters.length then some (a + 1) else none, received := true }
      else waiterAt ch.waiters i := by
    intro i
    rw [waiterAt_unlockWaiter, List.length_set, waiterAt_set, waiterAt_set]
    by_cases e : i = a
    · simp [e, ha, hpa, parkedWaiter]
    · simp [e, Ne.symm e]
  have hfin : ∀ ch' : unboundedChannel T,
      ch'.waiters = unlockWaiter (ch.waiters.set a
        { waiterAt ch.waiters a with dptr := v, received := true }) a →
      ch'.waitList = (if a + 1 < ch.waiters.length then some (a + 1) else none) →
      ch'.lastWaiter = (if a + 1 < ch.waiters.length then ch.lastWaiter else none) →
      ch'.closed = ch.closed → ch'.headIndex = ch.headIndex → ch'.tailIndex = ch.tailIndex →
      ch'.head = ch.head → ch'.tail = ch.tail →
      WaitInv ch' ∧ ch'.waiters.length = ch.waiters.length ∧ waitStart ch' = a + 1 ∧
      waiterAt ch'.waiters a =
        { locked := false, unlocks := 1, dptr := v,
          next := if a + 1 < ch.waiters.length then some (a + 1) else none, received := true } ∧
      ∀ i, i ≠ a → waiterAt ch'.waiters i = waiterAt ch.waiters i := by
    intro ch' e1 e2 e3 e4 e5 e6 e7 e8
    have hl : ch'.waiters.length = ch.waiters.length := by rw [e1, hlen]
    have hst : waitStart ch' = a + 1 := by
      by_cases c : a + 1 < ch.waiters.length
      · rw [if_pos c] at e2; rw [waitStart_some e2]
      · rw [if_neg c] at e2; rw [waitStart_none e2, hl]; omega
    refine ⟨?_, hl, hst, ?_, ?_⟩
    · constructor
      · intro b hb
        rw [e2] at hb
        by_cases c : a + 1 < ch.waiters.length
        · rw [if_pos c] at hb; cases hb; rw [hl]; exact c
        · rw [if_neg c] at hb; cases hb
      · intro i hi1 hi2
        rw [hst] at hi1
        rw [hl] at hi2 ⊢
        rw [e1, hat, if_neg (by omega)]
        exact h.parked i (by rw [hs]; omega) hi2
      · intro i hi
        rw [hst] at hi
        rw [e1, hat]
        by_cases e : i = a
        · simp [e]
        · rw [if_neg e, e4]
          exact h.resolved i (by rw [hs]; omega)
      · intro b hb
        rw [e4, e5, e6, e7, e8]
        exact hoe
      · intro _
        rw [e3, e2, hl]
        by_cases c : a + 1 < ch.waiters.length
        · simp only [if_pos c]
          rw [h.last hc, hw]; simp
        · simp only [if_neg c]; simp
    · rw [e1, hat, if_pos rfl]
    · intro i hi
      rw [e1, hat, if_neg hi]
  have hnext : (waiterAt ch.waiters a).next =
      if a + 1 < ch.waiters.length then some (a + 1) else none := by
    rw [hpa]; rfl
  by_cases c : a + 1 < ch.waiters.length
  · rw [if_pos c] at hnext
    have hS : Send ch v = ({ ch with waitList := some (a + 1), waiters := unlockWaiter (ch.waiters.set a
        { waiterAt ch.waiters a with dptr := v, received := true }) a }, SendOutcome.done) := by
      unfold Send
      simp [hc, hw, hnext]
    obtain ⟨r1, r2, r3, r4, r5⟩ := hfin
      { ch with waitList := some (a + 1), waiters := unlockWaiter (ch.waiters.set a
        { waiterAt ch.waiters a with dptr := v, received := true }) a }
      rfl (by simp [c]) (by simp [c]) rfl rfl rfl rfl rfl
    exact ⟨_, hS, r1, rfl, rfl, rfl, rfl, rfl, hc, r2, r3, r4, r5⟩
  · rw [if_neg c] at hnext
    have hS : Send ch v = ({ ch with waitList := none, lastWaiter := none, waiters := unlockWaiter (ch.waiters.set a
        { waiterAt ch.waiters a with dptr := v, received := true }) a }, SendOutcome.done) := by
      unfold Send
      simp [hc, hw, hnext]
    obtain ⟨r1, r2, r3, r4, r5⟩ := hfin
      { ch with waitList := none, lastWaiter := none, waiters := unlockWaiter (ch.waiters.set a
        { waiterAt ch.waiters a with dptr := v, received := true }) a }
      rfl (by simp [c]) (by simp [c]) rfl rfl rfl rfl rfl
    exact ⟨_, hS, r1, rfl, rfl, rfl, rfl, rfl, hc, r2, r3, r4, r5⟩

theorem parkedWaiter_grow {i n : Nat} (h : i + 1 < n) :
    parkedWaiter T i n = parkedWaiter T i (n + 1) := by
  have h2 : i + 1 < n + 1 := by omega
  simp [parkedWaiter, h, h2]

/-- Receive on an empty open channel registers a new waiter at the end of the wait list. -/
theorem Receive_park {ch : unboundedChannel T} (h : WaitInv ch) (hc : ch.closed = false)
    (hi : ch.headIndex = ch.tailIndex) (ht : ch.head = ch.tail) :
    ∃ ch', Receive ch = (ch', RecvOutcome.blocked ch.waiters.length) ∧ WaitInv ch' ∧
      ch'.chunks = ch.chunks ∧ ch'.head = ch.head ∧ ch'.tail = ch.tail ∧
      ch'.headIndex = ch.headIndex ∧ ch'.tailIndex = ch.tailIndex ∧ ch'.closed = false ∧
      ch'.waiters.length = ch.waiters.length + 1 ∧ waitStart ch' = waitStart ch ∧
      ch'.waitList = some (waitStart ch) ∧
      ∀ i, i < waitStart ch → waiterAt ch'.waiters i = waiterAt ch.waiters i := by
  have hcond : ch.headIndex = ch.tailIndex ∧ ch.head = ch.tail ∧ ch.closed = false :=
    ⟨hi, ht, hc⟩
  have hlast := h.last hc
  have hsl := waitStart_le h
  have hnewp : ({ emptyWaiter T with locked := true } : waiter T) =
      parkedWaiter T ch.waiters.length (ch.waiters.length + 1) := by
    simp [parkedWaiter, emptyWaiter]
  cases hw : ch.waitList with
  | none =>
    rw [hw] at hlast
    simp only [if_true] at hlast
    have hs := waitStart_none hw
    have hR : Receive ch = ({ ch with waiters := ch.waiters ++ [{ emptyWaiter T with locked := true }], waitList := some ch.waiters.length, lastWaiter := some ch.waiters.length }, RecvOutcome.blocked ch.waiters.length) := by
      unfold Receive
      rw [if_pos hcond]
      simp [hlast]
    refine ⟨_, hR, ?_, rfl, rfl, rfl, rfl, rfl, hc, by simp, ?_, ?_, ?_⟩
    · constructor
      · intro a ha
        simp only [Option.some.injEq] at ha
        simp only [List.length_append, List.length_singleton]
        omega
      · intro i hi1 hi2
        simp only [waitStart, List.length_append, List.length_singleton] at hi1 hi2 ⊢
        have : i = ch.waiters.length := by omega
        rw [this, waiterAt_append]
        simp [hnewp]
      · intro i hi1
        simp only [waitStart] at hi1
        simp only []
        rw [waiterAt_append, if_pos hi1]
        exact h.resolved i (by rw [hs]; exact hi1)
      · intro a _
        exact ⟨hc, hi, ht⟩
      · intro _; simp
    · rw [hs]; rfl
    · rw [hs]
    · intro i hi1
      rw [hs] at hi1
      simp only []
      rw [waiterAt_append, if_pos hi1]
  | some a =>
    rw [hw] at hlast
    simp only [reduceCtorEq, if_false] at hlast
    have hs := waitStart_some hw
    have ha := h.head_lt a hw
    have hR : Receive ch = ({ ch with waiters := (ch.waiters ++ [{ emptyWaiter T with locked := true }]).set (ch.waiters.length - 1) { waiterAt (ch.waiters ++ [{ emptyWaiter T with locked := true }]) (ch.waiters.length - 1) with next := some ch.waiters.length }, lastWaiter := some ch.waiters.length }, RecvOutcome.blocked ch.waiters.length) := by
      unfold Receive
      rw [if_pos hcond]
      simp [hlast]
    have hat : ∀ i, waiterAt ((ch.waiters ++ [{ emptyWaiter T with locked := true }]).set
        (ch.waiters.length - 1)
        { waiterAt (ch.waiters ++ [{ emptyWaiter T with locked := true }])
            (ch.waiters.length - 1) with next := some ch.waiters.length }) i =
        if i = ch.waiters.length - 1 then
          { waiterAt ch.waiters (ch.waiters.length - 1) with next := some ch.waiters.length }
        else if i < ch.waiters.length then waiterAt ch.waiters i
        else if i = ch.waiters.length then { emptyWaiter T with locked := true }
        else emptyWaiter T := by
      intro i
      rw [waiterAt_set, waiterAt_append, waiterAt_append]
      have t1 : ch.waiters.length - 1 < ch.waiters.length := by omega
      have t0 : ch.waiters.length - 1 < ch.waiters.length + 1 := by omega
      by_cases e : i = ch.waiters.length - 1
      · simp [e, t1, t0]
      · have e' : ¬ ch.waiters.length - 1 = i := fun c => e c.symm
        simp [e, e']
    refine ⟨_, hR, ?_, rfl, rfl, rfl, rfl, rfl, hc, by simp, ?_, ?_, ?_⟩
    · constructor
      · intro b hb
        have : b = a := by
          have hb' : ch.waitList = some b := hb
          rw [hw] at hb'; cases hb'; rfl
        simp only [List.length_set, List.length_append, List.length_singleton]
        omega
      · intro i hi1 hi2
        simp only [waitStart, hw] at hi1
        simp only [List.length_set, List.length_append, List.length_singleton] at hi2 ⊢
        rw [hat]
        by_cases e1 : i = ch.waiters.length - 1
        · rw [if_pos e1, h.parked _ (by omega) (by omega)]
          have t1 : ¬ (ch.waiters.length - 1 + 1 < ch.waiters.length) := by omega
          have t2 : ch.waiters.length - 1 + 1 = ch.waiters.length := by omega
          simp [parkedWaiter, e1, t2]
        · rw [if_neg e1]
          by_cases e2 : i < ch.waiters.length
          · rw [if_pos e2, h.parked _ (by omega) e2]
            exact parkedWaiter_grow (by omega)
          · have e3 : i = ch.waiters.length := by omega
            rw [if_neg e2, if_pos e3, e3]
            exact hnewp
      · intro i hi1
        simp only [waitStart, hw] at hi1
        simp only []
        rw [hat, if_neg (by omega), if_pos (by omega)]
        exact h.resolved i (by omega)
      · intro b _
        exact ⟨hc, hi, ht⟩
      · intro _
        simp [hw]
    · simp only [waitStart, hw]
    · rw [hs]; exact hw
    · intro i hi1
      simp only []
      rw [hat, if_neg (by omega), if_pos (by omega)]

/-- Receive on a closed channel whose buffer is empty returns `(zero, false)` at once. -/
theorem Receive_closed_empty {ch : unboundedChannel T} (hc : ch.closed = true)
    (hi : ch.headIndex = ch.tailIndex) (ht : ch.head = ch.tail) :
    Receive ch = (ch, RecvOutcome.returned default false) := by
  unfold Receive
  have c1 : ¬ (ch.headIndex = ch.tailIndex ∧ ch.head = ch.tail ∧ ch.closed = false) := by
    rw [hc]; simp
  rw [if_neg c1]
  simp only []
  rw [if_pos ⟨hc, hi, ht⟩]

/-- The loop of `Close` on a wait list whose nodes are linked in address order:
it ends, every node on the list is unlocked once and nothing else changes. -/
theorem CloseLoop_spec (n : Nat) : ∀ (fuel : Nat) (ch : unboundedChannel T),
    (∀ a, ch.waitList = some a → a < ch.waiters.length) →
    (∀ i, waitStart ch ≤ i → i < ch.waiters.length →
      (waiterAt ch.waiters i).next = if i + 1 < ch.waiters.length then some (i + 1) else none) →
    ch.waiters.length - waitStart ch = n → n ≤ fuel →
    ∃ ch', CloseLoop fuel ch = some ch' ∧ ch'.waitList = none ∧
      ch'.chunks = ch.chunks ∧ ch'.head = ch.head ∧ ch'.tail = ch.tail ∧
      ch'.headIndex = ch.headIndex ∧ ch'.tailIndex = ch.tailIndex ∧
      ch'.closed = ch.closed ∧ ch'.lastWaiter = ch.lastWaiter ∧
      ch'.waiters.length = ch.waiters.length ∧
      (∀ i, i < waitStart ch → waiterAt ch'.waiters i = waiterAt ch.waiters i) ∧
      (∀ i, waitStart ch ≤ i → i < ch.waiters.length →
        waiterAt ch'.waiters i =
          { waiterAt ch.waiters i with
            locked := false, unlocks := (waiterAt ch.waiters i).unlocks + 1 }) := by
  induction n with
  | zero =>
    intro fuel ch h1 _ hn _
    have hw : ch.waitList = none := by
      cases hw : ch.waitList with
      | none => rfl
      | some a =>
        have := h1 a hw
        rw [waitStart_some hw] at hn
        omega
    refine ⟨ch, CloseLoop_none fuel hw, hw, rfl, rfl, rfl, rfl, rfl, rfl, rfl, rfl,
      fun _ _ => rfl, ?_⟩
    intro i hi1 hi2
    rw [waitStart_none hw] at hi1
    omega
  | succ n ih =>
    intro fuel ch h1 h2 hn hf
    cases hw : ch.waitList with
    | none =>
      rw [waitStart_none hw] at hn
      omega
    | some a =>
      have ha := h1 a hw
      have hs := waitStart_some hw
      rw [hs] at hn
      obtain ⟨f, rfl⟩ : ∃ f, fuel = f + 1 := ⟨fuel - 1, by omega⟩
      have hnext := h2 a (by rw [hs]) ha
      have hstep : CloseLoop (f + 1) ch = CloseLoop f { ch with waitList := (waiterAt ch.waiters a).next, waiters := unlockWaiter ch.waiters a } := by
        simp only [CloseLoop, hw]
      have hs1 : waitStart ({ ch with waitList := (waiterAt ch.waiters a).next, waiters := unlockWaiter ch.waiters a } : unboundedChannel T) = a + 1 := by
        simp only [waitStart, hnext, length_unlockWaiter]
        by_cases c : a + 1 < ch.waiters.length
        · simp [c]
        · simp [c]; omega
      obtain ⟨ch', r1, r2, r3, r4, r5, r6, r7, r8, r9, r10, r11, r12⟩ :=
        ih f { ch with waitList := (waiterAt ch.waiters a).next, waiters := unlockWaiter ch.waiters a }
          (by
            intro b hb
            simp only [hnext] at hb
            simp only [length_unlockWaiter]
            by_cases c : a + 1 < ch.waiters.length
            · rw [if_pos c] at hb; cases hb; exact c
            · rw [if_neg c] at hb; cases hb)
          (by
            intro i hi1 hi2
            rw [hs1] at hi1
            simp only [length_unlockWaiter] at hi2 ⊢
            rw [waiterAt_unlockWaiter, if_neg (by omega)]
            exact h2 i (by rw [hs]; omega) hi2)
          (by rw [hs1]; simp only [length_unlockWaiter]; omega)
          (by omega)
      rw [hs1] at r11 r12
      simp only [length_unlockWaiter] at r10 r12
      refine ⟨ch', by rw [hstep]; exact r1, r2, r3, r4, r5, r6, r7, r8, r9, r10, ?_, ?_⟩
      · intro i hi
        rw [hs] at hi
        rw [r11 i (by omega)]
        simp only []
        rw [waiterAt_unlockWaiter, if_neg (by omega)]
      · intro i hi1 hi2
        rw [hs] at hi1
        by_cases e : i = a
        · rw [r11 i (by omega)]
          simp only []
          rw [waiterAt_unlockWaiter, if_pos ⟨e.symm, ha⟩, e]
        · rw [r12 i (by omega) hi2]
          simp only []
          rw [waiterAt_unlockWaiter, if_neg (by omega)]

/-- Close on a well-formed channel: it returns, the channel is closed, the wait
list is empty and every parked receiver has been released without a value. -/
theorem Close_spec {ch : unboundedChannel T} (h : WaitInv ch) :
    ∃ ch', Close ch = some ch' ∧ WaitInv ch' ∧ ch'.closed = true ∧ ch'.waitList = none ∧
      ch'.chunks = ch.chunks ∧ ch'.head = ch.head ∧ ch'.tail = ch.tail ∧
      ch'.headIndex = ch.headIndex ∧ ch'.tailIndex = ch.tailIndex ∧
      ch'.lastWaiter = ch.lastWaiter ∧ ch'.waiters.length = ch.waiters.length ∧
      (∀ i, i < waitStart ch → waiterAt ch'.waiters i = waiterAt ch.waiters i) ∧
      (∀ i, waitStart ch ≤ i → i < ch.waiters.length →
        waiterAt ch'.waiters i =
          { parkedWaiter T i ch.waiters.length with locked := false, unlocks := 1 }) := by
  have hs0 : waitStart ({ ch with closed := true } : unboundedChannel T) = waitStart ch := rfl
  obtain ⟨ch', r1, r2, r3, r4, r5, r6, r7, r8, r9, r10, r11, r12⟩ :=
    CloseLoop_spec (ch.waiters.length - waitStart ch) ch.waiters.length { ch with closed := true }
      h.head_lt
      (by
        intro i hi1 hi2
        rw [hs0] at hi1
        show (waiterAt ch.waiters i).next = _
        rw [h.parked i hi1 hi2]; rfl)
      rfl (Nat.sub_le _ _)
  rw [hs0] at r11 r12
  replace r3 : ch'.chunks = ch.chunks := r3
  replace r4 : ch'.head = ch.head := r4
  replace r5 : ch'.tail = ch.tail := r5
  replace r6 : ch'.headIndex = ch.headIndex := r6
  replace r7 : ch'.tailIndex = ch.tailIndex := r7
  replace r8 : ch'.closed = true := r8
  replace r9 : ch'.lastWaiter = ch.lastWaiter := r9
  replace r10 : ch'.waiters.length = ch.waiters.length := r10
  replace r11 : ∀ i, i < waitStart ch → waiterAt ch'.waiters i = waiterAt ch.waiters i := r11
  have hst : waitStart ch' = ch.waiters.length := by rw [waitStart_none r2, r10]
  have hpk : ∀ i, waitStart ch ≤ i → i < ch.waiters.length →
      waiterAt ch'.waiters i =
        { parkedWaiter T i ch.waiters.length with locked := false, unlocks := 1 } := by
    intro i hi1 hi2
    have e := r12 i hi1 hi2
    simp only [h.parked i hi1 hi2] at e
    rw [e]
    rfl
  refine ⟨ch', r1, ?_, r8, r2, r3, r4, r5, r6, r7, r9, r10, r11, hpk⟩
  constructor
  · intro a ha; rw [r2] at ha; cases ha
  · intro i hi1 hi2
    rw [hst] at hi1; rw [r10] at hi2; omega
  · intro i hi
    rw [hst] at hi
    by_cases c : i < waitStart ch
    · rw [r11 i c]
      have := h.resolved i c
      exact ⟨this.1, fun hr => ⟨r8, (this.2 hr).2⟩⟩
    · rw [hpk i (by omega) hi]
      exact ⟨rfl, fun _ => ⟨r8, rfl⟩⟩
  · intro a ha; rw [r2] at ha; cases ha
  · intro hc
    rw [r8] at hc
    cases hc

/-- The second half of a parked Receive can only run for a released waiter; it
re-locks the waiter's mutex and returns the slot and the flag. -/
theorem ReceiveWake_spec {ch ch' : unboundedChannel T} (h : WaitInv ch) {w : Nat} {v : T}
    {ok : Bool} (hr : ReceiveWake ch w = some (ch', v, ok)) :
    w < waitStart ch ∧ v = (waiterAt ch.waiters w).dptr ∧
      ok = (waiterAt ch.waiters w).received ∧
      ch' = { ch with waiters := ch.waiters.set w { waiterAt ch.waiters w with locked := true } } := by
  unfold ReceiveWake at hr
  cases hg : ch.waiters.get? w with
  | none => rw [hg] at hr; cases hr
  | some node =>
    rw [hg] at hr
    simp only [] at hr
    have hlt : w < ch.waiters.length := by
      rw [List.get?_eq_some] at hg
      exact hg.1
    have hnode : waiterAt ch.waiters w = node := by
      unfold waiterAt
      rw [List.getD_eq_getElem?_getD, ← List.get?_eq_getElem?, hg]
      rfl
    by_cases hl : node.locked = true
    · rw [if_pos hl] at hr; cases hr
    · rw [if_neg hl] at hr
      injection hr with hr
      injection hr with e1 e2
      injection e2 with e2 e3
      refine ⟨?_, ?_, ?_, ?_⟩
      · by_contra c
        have := h.parked w (by omega) hlt
        rw [hnode] at this
        rw [this] at hl
        exact hl rfl
      · rw [hnode, e2]
      · rw [hnode, e3]
      · rw [hnode, ← e1]

theorem WaitInv_wake {ch : unboundedChannel T} (h : WaitInv ch) {w : Nat} (hw : w < waitStart ch) :
    WaitInv ({ ch with waiters := ch.waiters.set w { waiterAt ch.waiters w with locked := true } }) ∧
    waitStart ({ ch with waiters := ch.waiters.set w { waiterAt ch.waiters w with locked := true } } :
      unboundedChannel T) = waitStart ch ∧
    ∀ i, (waiterAt (ch.waiters.set w { waiterAt ch.waiters w with locked := true }) i).received
        = (waiterAt ch.waiters i).received := by
  have hs : waitStart ({ ch with waiters := ch.waiters.set w { waiterAt ch.waiters w with locked := true } } :
      unboundedChannel T) = waitStart ch := by
    simp only [waitStart, List.length_set]
  have hf : ∀ i, (waiterAt (ch.waiters.set w { waiterAt ch.waiters w with locked := true }) i).received
        = (waiterAt ch.waiters i).received ∧
      (waiterAt (ch.waiters.set w { waiterAt ch.waiters w with locked := true }) i).unlocks
        = (waiterAt ch.waiters i).unlocks ∧
      (waiterAt (ch.waiters.set w { waiterAt ch.waiters w with locked := true }) i).dptr
        = (waiterAt ch.waiters i).dptr ∧
      (i ≠ w → waiterAt (ch.waiters.set w { waiterAt ch.waiters w with locked := true }) i
        = waiterAt ch.waiters i) := by
    intro i
    rw [waiterAt_set]
    by_cases c : w = i ∧ w < ch.waiters.length
    · rw [if_pos c, c.1]
      exact ⟨rfl, rfl, rfl, fun e => absurd rfl e⟩
    · rw [if_neg c]
      exact ⟨rfl, rfl, rfl, fun _ => rfl⟩
  refine ⟨?_, hs, fun i => (hf i).1⟩
  constructor
  · intro a ha
    simp only [List.length_set]
    exact h.head_lt a ha
  · intro i hi1 hi2
    rw [hs] at hi1
    simp only [List.length_set] at hi2 ⊢
    rw [(hf i).2.2.2 (by omega)]
    exact h.parked i hi1 hi2
  · intro i hi
    rw [hs] at hi
    simp only []
    rw [(hf i).1, (hf i).2.1, (hf i).2.2.1]
    exact h.resolved i hi
  · exact h.open_empty
  · intro hc
    simp only [List.length_set]
    exact h.last hc

theorem Send_closed {ch : unboundedChannel T} (hc : ch.closed = true) (v : T) :
    Send ch v = (ch, SendOutcome.panicked "writing into closed channel") := by
  unfold Send
  rw [if_pos hc]

theorem step_send_panicked {e : Exec T} {v : T} {ch' : unboundedChannel T} {msg : String}
    (h : Send e.ch v = (ch', SendOutcome.panicked msg)) :
    step e (Op.send v) = some { e with ch := ch', obs := e.obs ++ [Obs.sendPanicked msg] } := by
  simp only [step, h]

theorem step_wake_none {e : Exec T} {w : Nat} (h : ReceiveWake e.ch w = none) :
    step e (Op.wake w) = some { e with obs := e.obs ++ [Obs.stillParked w] } := by
  simp only [step, h]

theorem step_wake_some {e : Exec T} {w : Nat} {ch' : unboundedChannel T} {v : T} {ok : Bool}
    (h : ReceiveWake e.ch w = some (ch', v, ok)) :
    step e (Op.wake w) = some { e with ch := ch', obs := e.obs ++ [Obs.woken w v ok] } := by
  simp only [step, h]

theorem ExecInv_init : ExecInv (Exec.init T) := by
  constructor
  · exact BufInv_New
  · exact WaitInv_New
  · exact List.nil_sublist _
  · intro i hi; exact absurd hi (Nat.not_lt_zero _)

/-- On an open channel no receiver has been released without a value. -/
theorem no_false_while_open {ch : unboundedChannel T} (h : WaitInv ch) (hc : ch.closed = false)
    {i : Nat} (hi : i < waitStart ch) : (waiterAt ch.waiters i).received ≠ false := by
  intro hr
  have := ((h.resolved i hi).2 hr).1
  rw [hc] at this
  cases this

theorem pending_nil_of_waiting {ch : unboundedChannel T} (hB : BufInv ch) (hW : WaitInv ch)
    {a : Nat} (hw : ch.waitList = some a) : pending ch = [] := by
  rw [pending_eq_nil_iff hB]
  exact (hW.open_empty a hw).2

omit [Inhabited T] in
theorem waitStart_congr {ch ch' : unboundedChannel T} (e1 : ch'.waiters = ch.waiters)
    (e2 : ch'.waitList = ch.waitList) : waitStart ch' = waitStart ch := by
  simp only [waitStart, e1, e2]

/-- Every step can be taken from a well-formed execution and leads to a well-formed one. -/
theorem step_spec {e : Exec T} (h : ExecInv e) (op : Op T) :
    ∃ e', step e op = some e' ∧ ExecInv e' := by
  have hB := h.buf
  have hW := h.wait
  cases op with
  | send v =>
    cases hc : e.ch.closed with
    | true =>
      refine ⟨_, step_send_panicked (Send_closed hc v), ?_⟩
      exact ⟨hB, hW, h.conserved, h.drained⟩
    | false =>
      cases hw : e.ch.waitList with
      | none =>
        obtain ⟨ch', hS, hI, hws, _, _, hwl, hlw, hcl, hp⟩ := Send_buffer hB hc hw v
        refine ⟨_, step_send_done hS, ?_⟩
        have hW' : WaitInv ch' := WaitInv_congr hW hws hwl hlw hcl
          (by intro a ha; rw [hw] at ha; cases ha)
        constructor
        · exact hI
        · exact hW'
        · show (e.sent ++ [v]).Sublist ((if e.ch.waitList.isSome then e.delivered ++ [v] else e.delivered) ++ pending ch')
          rw [hw, hp, ← List.append_assoc]
          exact List.Sublist.append h.conserved (List.Sublist.refl _)
        · intro i hi hr
          exact absurd hr (no_false_while_open hW' (by rw [hcl, hc]) hi)
      | some a =>
        obtain ⟨ch', hS, hW', e1, e2, e3, e4, e5, hcl, _, _, _, _⟩ := Send_handoff hW hc hw v
        refine ⟨_, step_send_done hS, ?_⟩
        have hp0 := pending_nil_of_waiting hB hW hw
        constructor
        · exact BufInv_congr hB e1 e2 e3 e4 e5
        · exact hW'
        · show (e.sent ++ [v]).Sublist ((if e.ch.waitList.isSome then e.delivered ++ [v] else e.delivered) ++ pending ch')
          rw [hw, pending_congr e1 e2 e3 e4 e5, hp0]
          have := h.conserved
          rw [hp0, List.append_nil] at this
          simp only [Option.isSome_some, if_true, List.append_nil]
          exact List.Sublist.append this (List.Sublist.refl _)
        · intro i hi hr
          exact absurd hr (no_false_while_open hW' hcl hi)
  | receive =>
    by_cases hemp : e.ch.headIndex = e.ch.tailIndex ∧ e.ch.head = e.ch.tail
    · cases hc : e.ch.closed with
      | false =>
        obtain ⟨ch', hR, hW', e1, e2, e3, e4, e5, hcl, _, _, _, _⟩ :=
          Receive_park hW hc hemp.1 hemp.2
        refine ⟨_, step_receive_blocked hR, ?_⟩
        constructor
        · exact BufInv_congr hB e1 e2 e3 e4 e5
        · exact hW'
        · show e.sent.Sublist (e.delivered ++ pending ch')
          rw [pending_congr e1 e2 e3 e4 e5]
          exact h.conserved
        · intro i hi hr
          exact absurd hr (no_false_while_open hW' hcl hi)
      | true =>
        refine ⟨_, step_receive_returned (Receive_closed_empty hc hemp.1 hemp.2), ?_⟩
        exact ⟨hB, hW, h.conserved, h.drained⟩
    · have hne : pending e.ch ≠ [] := fun c => hemp ((pending_eq_nil_iff hB).mp c)
      obtain ⟨v, rest, hp⟩ := List.exists_cons_of_ne_nil hne
      obtain ⟨ch', hR, hI, e1, hws, e3, e5, hwl, hlw, hcl, hp'⟩ := Receive_buffer hB hp
      refine ⟨_, step_receive_returned hR, ?_⟩
      have hcons := h.conserved
      rw [hp] at hcons
      constructor
      · exact hI
      · apply WaitInv_congr hW hws hwl hlw hcl
        intro a ha
        have := pending_nil_of_waiting hB hW ha
        rw [hp] at this
        cases this
      · show e.sent.Sublist ((if true = true then e.delivered ++ [v] else e.delivered) ++ pending ch')
        rw [if_pos rfl]
        rcases hp' with hp' | hp'
        · rw [hp']
          simpa using hcons
        · rw [hp'] at hcons
          exact List.Sublist.trans hcons (List.sublist_append_left _ _)
      · intro i hi hr
        rw [waitStart_congr hws hwl] at hi
        have := h.drained i hi (by rw [← hws]; exact hr)
        show e.sent.Sublist (if true = true then e.delivered ++ [v] else e.delivered)
        rw [if_pos rfl]
        exact List.Sublist.trans this (List.sublist_append_left _ _)
  | close =>
    obtain ⟨ch', hC, hW', hcl, hwl, e1, e2, e3, e4, e5, _, hlen, hlow, hpk⟩ := Close_spec hW
    refine ⟨_, step_close hC, ?_⟩
    have hpe : pending ch' = pending e.ch := pending_congr e1 e2 e3 e4 e5
    constructor
    · exact BufInv_congr hB e1 e2 e3 e4 e5
    · exact hW'
    · show e.sent.Sublist (e.delivered ++ pending ch')
      rw [hpe]
      exact h.conserved
    · intro i hi hr
      show e.sent.Sublist e.delivered
      by_cases c : i < waitStart e.ch
      · exact h.drained i c (by rw [← hlow i c]; exact hr)
      · have hi' : i < e.ch.waiters.length := by
          have : waitStart ch' = ch'.waiters.length := waitStart_none hwl
          have hi2 : i < waitStart ch' := hi
          omega
        cases hw : e.ch.waitList with
        | none =>
          rw [waitStart_none hw] at c
          exact absurd hi' c
        | some a =>
          have := h.conserved
          rw [pending_nil_of_waiting hB hW hw, List.append_nil] at this
          exact this
  | wake w =>
    cases hr : ReceiveWake e.ch w with
    | none =>
      refine ⟨_, step_wake_none hr, ?_⟩
      exact ⟨hB, hW, h.conserved, h.drained⟩
    | some r =>
      obtain ⟨ch', v, ok⟩ := r
      obtain ⟨hw, _, _, hch⟩ := ReceiveWake_spec hW hr
      obtain ⟨hW', hs', hrec⟩ := WaitInv_wake hW hw
      refine ⟨_, step_wake_some hr, ?_⟩
      subst hch
      constructor
      · exact BufInv_congr hB rfl rfl rfl rfl rfl
      · exact hW'
      · have hpe : pending ({ e.ch with waiters := e.ch.waiters.set w { waiterAt e.ch.waiters w with locked := true } } : unboundedChannel T) = pending e.ch :=
          pending_congr rfl rfl rfl rfl rfl
        show e.sent.Sublist (e.delivered ++ pending _)
        rw [hpe]
        exact h.conserved
      · intro i hi hr'
        rw [hs'] at hi
        exact h.drained i hi (by rw [← hrec i]; exact hr')

theorem ExecInv_step {e e' : Exec T} (h : ExecInv e) {op : Op T} (hs : step e op = some e') :
    ExecInv e' := by
  obtain ⟨e1, h1, h2⟩ := step_spec h op
  rw [h1] at hs
  injection hs with hs
  rw [← hs]; exact h2

theorem ExecInv_runFrom (ops : List (Op T)) : ∀ {e e' : Exec T}, ExecInv e →
    runFrom e ops = some e' → ExecInv e' := by
  induction ops with
  | nil =>
    intro e e' h hr
    injection hr with hr
    rw [← hr]; exact h
  | cons op ops ih =>
    intro e e' h hr
    obtain ⟨e1, h1, h2⟩ := step_spec h op
    simp only [runFrom, h1] at hr
    exact ih h2 hr

/-- Every run from a well-formed execution finishes: `Close` always gets through its loop. -/
theorem runFrom_total (ops : List (Op T)) : ∀ {e : Exec T}, ExecInv e →
    ∃ e', runFrom e ops = some e' := by
  induction ops with
  | nil => intro e _; exact ⟨e, rfl⟩
  | cons op ops ih =>
    intro e h
    obtain ⟨e1, h1, h2⟩ := step_spec h op
    obtain ⟨e2, h3⟩ := ih h2
    exact ⟨e2, by simp only [runFrom, h1]; exact h3⟩

theorem ExecInv_of_reachable {e : Exec T} (h : ReachableExec e) : ExecInv e := by
  obtain ⟨ops, hr⟩ := h
  exact ExecInv_runFrom ops ExecInv_init hr

theorem get?_eq_waiterAt {l : List (waiter T)} {w : Nat} (h : w < l.length) :
    l.get? w = some (waiterAt l w) := by
  unfold waiterAt
  rw [List.getD_eq_getElem?_getD, List.get?_eq_getElem?, List.getElem?_eq_getElem h]
  rfl

theorem ReceiveWake_unlocked {ch : unboundedChannel T} {w : Nat} (h : w < ch.waiters.length)
    (hl : (waiterAt ch.waiters w).locked = false) :
    ReceiveWake ch w = some
      ({ ch with waiters := ch.waiters.set w { waiterAt ch.waiters w with locked := true } },
        (waiterAt ch.waiters w).dptr, (waiterAt ch.waiters w).received) := by
  unfold ReceiveWake
  rw [get?_eq_waiterAt h]
  simp [hl]

theorem ReceiveWake_locked {ch : unboundedChannel T} {w : Nat}
    (hl : (waiterAt ch.waiters w).locked = true) (h : w < ch.waiters.length) :
    ReceiveWake ch w = none := by
  unfold ReceiveWake
  rw [get?_eq_waiterAt h]
  simp [hl]

theorem chainFrom_none (h : List (waiter T)) (fuel : Nat) : chainFrom h fuel none = [] := by
  cases fuel <;> rfl

theorem chainFrom_linked (h : List (waiter T)) (fuel : Nat) : ∀ a : Nat,
    (∀ i, a ≤ i → i < h.length →
      (waiterAt h i).next = if i + 1 < h.length then some (i + 1) else none) →
    a < h.length → h.length - a ≤ fuel →
    chainFrom h fuel (some a) = List.range' a (h.length - a) := by
  induction fuel with
  | zero => intro a _ h1 h2; omega
  | succ f ih =>
    intro a hn h1 h2
    have e : h.length - a = (h.length - (a + 1)) + 1 := by omega
    rw [e, List.range'_succ]
    simp only [chainFrom]
    congr 1
    rw [hn a (Nat.le_refl _) h1]
    by_cases c : a + 1 < h.length
    · rw [if_pos c]
      exact ih (a + 1) (fun i hi1 hi2 => hn i (by omega) hi2) c (by omega)
    · rw [if_neg c, chainFrom_none]
      have : h.length - (a + 1) = 0 := by omega
      rw [this]; rfl

/-- On a well-formed channel the wait list consists of the addresses from
`waitStart` to the end of the waiter heap, in increasing order. -/
theorem waitChain_eq {ch : unboundedChannel T} (h : WaitInv ch) :
    waitChain ch = List.range' (waitStart ch) (ch.waiters.length - waitStart ch) := by
  unfold waitChain
  cases hw : ch.waitList with
  | none =>
    rw [chainFrom_none, waitStart_none hw]
    simp
  | some a =>
    rw [waitStart_some hw]
    apply chainFrom_linked
    · intro i hi1 hi2
      rw [h.parked i (by rw [waitStart_some hw]; exact hi1) hi2]
      rfl
    · exact h.head_lt a hw
    · omega

theorem WaitInv_of_reachable {s : unboundedChannel T} (h : Reachable s) : WaitInv s := by
  obtain ⟨e, he, rfl⟩ := h
  exact (ExecInv_of_reachable he).wait

omit [Inhabited T] in
theorem closed_self {s : unboundedChannel T} (h : s.closed = true) :
    ({ s with closed := true } : unboundedChannel T) = s := by
  cases s
  simp only [] at h
  simp [h]

/-- **C8**: Send fails exactly on a closed channel.  In every channel state,
`Send(v)` panics with "writing into closed channel" if and only if the channel
is closed; when it panics the channel state is left unchanged; on an open
channel it completes, whatever the buffer holds. -/
theorem C8_send_fails_iff_closed (ch : unboundedChannel T) (v : T) :
    ((Send ch v).2 = SendOutcome.panicked "writing into closed channel" ↔ ch.closed = true) ∧
    ((Send ch v).2 = SendOutcome.done ↔ ch.closed = false) ∧
    (ch.closed = true → (Send ch v).1 = ch) := by
  cases hc : ch.closed with
  | true =>
    rw [Send_closed hc]
    simp
  | false =>
    have hd : (Send ch v).2 = SendOutcome.done := by
      unfold Send
      rw [hc]
      cases ch.waitList <;> rfl
    rw [hd]
    simp

/-- **C10**: Close is idempotent.  For every reachable channel state, `Close`
returns, and a second `Close` returns the very same state: it changes no field
and unlocks no waiter (the unlock counters are part of the state). -/
theorem C10_close_idempotent (s : unboundedChannel T) (h : Reachable s) :
    ∃ s1, Close s = some s1 ∧ Close s1 = some s1 := by
  obtain ⟨s1, hC, _, hcl, hwl, _⟩ := Close_spec (WaitInv_of_reachable h)
  refine ⟨s1, hC, ?_⟩
  rw [Close_no_waiters hwl, closed_self hcl]

/-- Witness for **C10**: the channel with one parked receiver. -/
theorem C10_close_idempotent_witness :
    Reachable (Receive (New Nat)).1 ∧
      ∃ s1, Close (Receive (New Nat)).1 = some s1 ∧ Close s1 = some s1 :=
  have hr : Reachable (Receive (New Nat)).1 :=
    ⟨⟨(Receive (New Nat)).1, [], [], [Obs.recvBlocked 0]⟩, ⟨[Op.receive], rfl⟩, rfl⟩
  ⟨hr, C10_close_idempotent _ hr⟩

/-- **C7**: Close releases every parked receiver.  For every reachable channel
state (in particular every open one, with any number `k ≥ 0` of receivers on
the wait list), `Close` returns a closed state whose wait list is empty; every
waiter that was on the wait list was parked before, has been unlocked exactly
once, and its `Receive` returns `(zero value, false)`. -/
theorem C7_close_releases_waiters (s : unboundedChannel T) (h : Reachable s) :
    ∃ s', Close s = some s' ∧ s'.closed = true ∧ s'.waitList = none ∧ waitChain s' = [] ∧
      ∀ w, w ∈ waitChain s →
        ReceiveWake s w = none ∧ (waiterAt s'.waiters w).unlocks = 1 ∧
        ∃ s'', ReceiveWake s' w = some (s'', default, false) := by
  have hW := WaitInv_of_reachable h
  obtain ⟨s', hC, hW', hcl, hwl, _, _, _, _, _, _, hlen, _, hpk⟩ := Close_spec hW
  refine ⟨s', hC, hcl, hwl, ?_, ?_⟩
  · rw [waitChain_eq hW', waitStart_none hwl]
    simp
  · intro w hw
    rw [waitChain_eq hW, List.mem_range'_1] at hw
    have hw2 : w < s.waiters.length := by omega
    have hp := hpk w hw.1 hw2
    refine ⟨?_, ?_, ?_⟩
    · apply ReceiveWake_locked _ hw2
      rw [hW.parked w hw.1 hw2]; rfl
    · rw [hp]
    · have hu := @ReceiveWake_unlocked T _ s' w (by rw [hlen]; exact hw2)
        (by rw [hp])
      rw [hp] at hu
      exact ⟨_, hu⟩

/-- Witness for **C7**: the channel with two parked receivers. -/
theorem C7_close_releases_waiters_witness :
    Reachable (Receive (Receive (New Nat)).1).1 ∧
    (Receive (Receive (New Nat)).1).1.closed = false ∧
    waitChain (Receive (Receive (New Nat)).1).1 = [0, 1] ∧
    ∃ s', Close (Receive (Receive (New Nat)).1).1 = some s' ∧ s'.closed = true ∧
      s'.waitList = none ∧ waitChain s' = [] ∧
      ∀ w, w ∈ waitChain (Receive (Receive (New Nat)).1).1 →
        ReceiveWake (Receive (Receive (New Nat)).1).1 w = none ∧
        (waiterAt s'.waiters w).unlocks = 1 ∧
        ∃ s'', ReceiveWake s' w = some (s'', default, false) :=
  have hr : Reachable (Receive (Receive (New Nat)).1).1 :=
    ⟨⟨(Receive (Receive (New Nat)).1).1, [], [], [Obs.recvBlocked 0, Obs.recvBlocked 1]⟩,
      ⟨[Op.receive, Op.receive], rfl⟩, rfl⟩
  ⟨hr, rfl, rfl, C7_close_releases_waiters _ hr⟩

/-- **C9**: `false` is reported only by a closed, drained channel.  In every
reachable execution, if a `Receive` call returns `ok = false` (at once, or as
the resumption of a parked call) then the channel is closed and every value
whose `Send` completed has been delivered to a receiver. -/
theorem C9_false_only_when_closed_and_drained (e : Exec T) (h : ReachableExec e) :
    (∀ ch' v, Receive e.ch = (ch', RecvOutcome.returned v false) →
      e.ch.closed = true ∧ pending e.ch = [] ∧ e.sent.Sublist e.delivered) ∧
    (∀ w ch' v, ReceiveWake e.ch w = some (ch', v, false) →
      e.ch.closed = true ∧ e.sent.Sublist e.delivered) := by
  have hI := ExecInv_of_reachable h
  have hB := hI.buf
  have hW := hI.wait
  constructor
  · intro ch' v hR
    by_cases hemp : e.ch.headIndex = e.ch.tailIndex ∧ e.ch.head = e.ch.tail
    · have hp : pending e.ch = [] := (pending_eq_nil_iff hB).mpr hemp
      cases hc : e.ch.closed with
      | false =>
        obtain ⟨ch1, hR1, _⟩ := Receive_park hW hc hemp.1 hemp.2
        rw [hR1] at hR
        injection hR with _ h2
        cases h2
      | true =>
        have := hI.conserved
        rw [hp, List.append_nil] at this
        exact ⟨rfl, hp, this⟩
    · have hne : pending e.ch ≠ [] := fun c => hemp ((pending_eq_nil_iff hB).mp c)
      obtain ⟨v1, rest, hp⟩ := List.exists_cons_of_ne_nil hne
      obtain ⟨ch1, hR1, _⟩ := Receive_buffer hB hp
      rw [hR1] at hR
      injection hR with _ h2
      injection h2 with _ h3
      cases h3
  · intro w ch' v hR
    obtain ⟨hw, _, hok, _⟩ := ReceiveWake_spec hW hR
    exact ⟨((hW.resolved w hw).2 hok.symm).1, hI.drained w hw hok.symm⟩

/-- Witness for **C9**: after `Send(7); Close(); Receive()` the next `Receive`
returns `(0, false)`; the channel is closed and the value sent was delivered. -/
theorem C9_false_only_when_closed_and_drained_witness :
    ReachableExec drainedExample ∧
    Receive drainedExample.ch = (drainedExample.ch, RecvOutcome.returned 0 false) ∧
    drainedExample.ch.closed = true ∧ pending drainedExample.ch = [] ∧
    drainedExample.sent.Sublist drainedExample.delivered :=
  have hr : ReachableExec drainedExample := ⟨[Op.send 7, Op.close, Op.receive], rfl⟩
  have hv : Receive drainedExample.ch = (drainedExample.ch, RecvOutcome.returned 0 false) := rfl
  ⟨hr, hv, (C9_false_only_when_closed_and_drained drainedExample hr).1 _ _ hv⟩

/-- Sending `j` values while at least `j` receivers are parked: each value goes
to the oldest receiver still parked, the others are left alone. -/
theorem runFrom_handoffs (j : Nat) : ∀ (e : Exec T) (vs : List T), ExecInv e →
    e.ch.closed = false → j ≤ e.ch.waiters.length - waitStart e.ch → j ≤ vs.length →
    ∃ e', runFrom e (sendOps (vs.take j)) = some e' ∧ ExecInv e' ∧ e'.ch.closed = false ∧
      e'.ch.waiters.length = e.ch.waiters.length ∧ waitStart e'.ch = waitStart e.ch + j ∧
      (∀ i v, i < j → vs[i]? = some v →
        (waiterAt e'.ch.waiters (waitStart e.ch + i)).locked = false ∧
        (waiterAt e'.ch.waiters (waitStart e.ch + i)).unlocks = 1 ∧
        (waiterAt e'.ch.waiters (waitStart e.ch + i)).dptr = v ∧
        (waiterAt e'.ch.waiters (waitStart e.ch + i)).received = true) ∧
      (∀ i, i < waitStart e.ch ∨ waitStart e.ch + j ≤ i →
        waiterAt e'.ch.waiters i = waiterAt e.ch.waiters i) ∧
      e'.obs = e.obs ++ List.replicate j Obs.sendDone := by
  induction j with
  | zero =>
    intro e vs h hc _ _
    exact ⟨e, rfl, h, hc, rfl, rfl, fun i v hi => absurd hi (Nat.not_lt_zero _),
      fun _ _ => rfl, by simp⟩
  | succ j ih =>
    intro e vs h hc hj hv
    cases vs with
    | nil => simp at hv
    | cons v vs =>
      have hW := h.wait
      cases hw : e.ch.waitList with
      | none =>
        rw [waitStart_none hw] at hj
        omega
      | some a =>
        have hs := waitStart_some hw
        rw [hs] at hj ⊢
        obtain ⟨ch', hS, _, _, _, _, _, _, hcl, hlen, hst, hat, hoth⟩ :=
          Send_handoff hW hc hw v
        have hstep := step_send_done hS
        obtain ⟨e1, he1, hI1⟩ := step_spec h (Op.send v)
        rw [hstep] at he1
        injection he1 with he1
        have hch1 : e1.ch = ch' := by rw [← he1]
        have hobs1 : e1.obs = e.obs ++ [Obs.sendDone] := by rw [← he1]
        obtain ⟨e', r1, r2, r3, r4, r5, r6, r7, r8⟩ := ih e1 vs hI1
          (by rw [hch1]; exact hcl) (by rw [hch1, hlen, hst]; omega)
          (by simpa using hv)
        rw [hch1] at r4 r5 r6 r7
        rw [hst] at r5 r6 r7
        refine ⟨e', ?_, r2, r3, ?_, ?_, ?_, ?_, ?_⟩
        · simp only [List.take_succ_cons, sendOps, List.map_cons, runFrom, hstep]
          rw [he1]
          exact r1
        · rw [r4, hlen]
        · rw [r5]; omega
        · intro i x hi hx
          cases i with
          | zero =>
            simp only [List.getElem?_cons_zero, Option.some.injEq] at hx
            rw [Nat.add_zero, r7 a (Or.inl (by omega)), hat, ← hx]
            exact ⟨rfl, rfl, rfl, rfl⟩
          | succ i =>
            simp only [List.getElem?_cons_succ] at hx
            have := r6 i x (by omega) hx
            have e2 : a + (i + 1) = a + 1 + i := by omega
            rw [e2]
            exact this
        · intro i hi
          rw [r7 i (by omega)]
          exact hoth i (by omega)
        · rw [r8, hobs1]
          simp [List.replicate_succ]

theorem drop_range'_one (j : Nat) : ∀ a n : Nat,
    List.drop j (List.range' a n) = List.range' (a + j) (n - j) := by
  induction j with
  | zero => intro a n; rfl
  | succ j ih =>
    intro a n
    cases n with
    | zero => simp
    | succ n =>
      rw [List.range'_succ, List.drop_succ_cons, ih]
      congr 1 <;> omega

/-- **C6**: handoff is FIFO over the wait list.  For every reachable execution
whose channel is open with `k` receivers parked on the wait list
`r_1, ..., r_k`, and values `v_1, ..., v_k`: after the first `j ≤ k` sends
(all of which complete) the wait list is `r_(j+1), ..., r_k`; receiver `r_i`
with `i ≤ j` has been unlocked exactly once and its `Receive` returns
`(v_i, true)`; every receiver `r_i` with `i > j` is still parked and has
never been unlocked. -/
theorem C6_handoff_fifo (e : Exec T) (h : ReachableExec e) (hc : e.ch.closed = false)
    (vs : List T) (hk : vs.length = (waitChain e.ch).length) (j : Nat) (hj : j ≤ vs.length) :
    ∃ e', runFrom e (sendOps (vs.take j)) = some e' ∧
      e'.obs = e.obs ++ List.replicate j Obs.sendDone ∧
      waitChain e'.ch = (waitChain e.ch).drop j ∧
      ∀ i w v, (waitChain e.ch)[i]? = some w → vs[i]? = some v →
        (i < j → (waiterAt e'.ch.waiters w).unlocks = 1 ∧
          ∃ s'', ReceiveWake e'.ch w = some (s'', v, true)) ∧
        (j ≤ i → (waiterAt e'.ch.waiters w).unlocks = 0 ∧ ReceiveWake e'.ch w = none) := by
  have hI := ExecInv_of_reachable h
  have hW := hI.wait
  have hchain := waitChain_eq hW
  have hsl := waitStart_le hW
  rw [hchain, List.length_range'] at hk
  obtain ⟨e', r1, r2, r3, r4, r5, r6, r7, r8⟩ := runFrom_handoffs j e vs hI hc (by omega) hj
  refine ⟨e', r1, r8, ?_, ?_⟩
  · rw [waitChain_eq r2.wait, hchain, r4, r5, drop_range'_one]
    congr 1
    omega
  · intro i w v hw hv
    rw [hchain, List.getElem?_range'] at hw
    · injection hw with hw
      subst hw
      have hi : i < vs.length := by
        by_contra c
        rw [List.getElem?_eq_none (by omega)] at hv
        cases hv
      have hlt : waitStart e.ch + 1 * i < e'.ch.waiters.length := by rw [r4]; omega
      constructor
      · intro hij
        have hx := r6 i v hij hv
        rw [Nat.one_mul]
        rw [Nat.one_mul] at hlt
        refine ⟨hx.2.1, ?_⟩
        have hu := ReceiveWake_unlocked hlt hx.1
        rw [hx.2.2.1, hx.2.2.2] at hu
        exact ⟨_, hu⟩
      · intro hij
        rw [Nat.one_mul]
        rw [Nat.one_mul] at hlt
        have hx := r7 (waitStart e.ch + i) (Or.inr (by omega))
        have hp := hW.parked (waitStart e.ch + i) (by omega) (by omega)
        rw [hp] at hx
        refine ⟨by rw [hx]; rfl, ?_⟩
        exact ReceiveWake_locked (by rw [hx]; rfl) hlt
    · by_contra c
      rw [List.getElem?_eq_none (by rw [List.length_range']; omega)] at hw
      cases hw

/-- Witness for **C6**: two parked receivers, `Send(10); Send(20)`, seen after the first send. -/
theorem C6_handoff_fifo_witness :
    ReachableExec parkedExample ∧ parkedExample.ch.closed = false ∧
    [10, 20].length = (waitChain parkedExample.ch).length ∧ 1 ≤ [10, 20].length ∧
    ∃ e', runFrom parkedExample (sendOps ([10, 20].take 1)) = some e' ∧
      e'.obs = parkedExample.obs ++ List.replicate 1 Obs.sendDone ∧
      waitChain e'.ch = (waitChain parkedExample.ch).drop 1 ∧
      ∀ i w v, (waitChain parkedExample.ch)[i]? = some w → [10, 20][i]? = some v →
        (i < 1 → (waiterAt e'.ch.waiters w).unlocks = 1 ∧
          ∃ s'', ReceiveWake e'.ch w = some (s'', v, true)) ∧
        (1 ≤ i → (waiterAt e'.ch.waiters w).unlocks = 0 ∧ ReceiveWake e'.ch w = none) :=
  have hr : ReachableExec parkedExample := ⟨[Op.receive, Op.receive], rfl⟩
  ⟨hr, rfl, rfl, by decide, C6_handoff_fifo parkedExample hr rfl [10, 20] rfl 1 (by decide)⟩

set_option maxRecDepth 200000 in
/-- **C2** (the code departs from the claim): `Send(1), ..., Send(128)`, 128 calls
of `Receive` (returning `1, ..., 128`), `Send(129)`, `Receive()`.  An undelivered
value, `129`, exists, and the last `Receive` returns `(1, true)`: the value sent
first is delivered a second time and `129` is not the next value delivered. -/
theorem C2_wrapped_head_redelivers :
    (run (sendOps oneChunk ++ receiveOps Nat 128 ++ [Op.send 129, Op.receive])).map
        (fun e => (e.sent.length, e.obs.drop 256, e.ch.head, e.ch.headIndex, e.ch.tail, e.ch.tailIndex)) =
      some (129, [Obs.sendDone, Obs.recv 1 true], 1, 1, 2, 1) := by
  decide

set_option maxRecDepth 200000 in
/-- **C3** (the code departs from the claim): `Send(1), ..., Send(128)`, `Close()`,
128 calls of `Receive` (returning `1, ..., 128`), then two more calls of `Receive`.
The channel is closed and every value has been received, yet the further calls
return `(1, true)` and `(2, true)` instead of `(0, false)`. -/
theorem C3_closed_drained_keeps_returning :
    (run (sendOps oneChunk ++ [Op.close] ++ receiveOps Nat 128 ++ [Op.receive, Op.receive])).map
        (fun e => (e.ch.closed, e.obs.drop 257)) =
      some (true, [Obs.recv 1 true, Obs.recv 2 true]) := by
  decide

set_option maxRecDepth 200000 in
/-- **C5** (the code departs from the claim): after `Send(1), ..., Send(128)` and 128
calls of `Receive`, as many values have been received as were sent and the
channel is open, but `headIndex = 0` and `tailIndex = 128`, so the next
`Receive` does not park: it returns `(1, true)` and registers no waiter. -/
theorem C5_receive_does_not_park_after_full_chunk :
    (run (sendOps oneChunk ++ receiveOps Nat 128)).map
        (fun e => (e.sent, e.delivered, e.ch.closed, (Receive e.ch).2, (Receive e.ch).1.waitList)) =
      some (oneChunk, oneChunk, false, RecvOutcome.returned 1 true, none) ∧
    (run (sendOps oneChunk ++ receiveOps Nat 128)).map
        (fun e => (e.ch.head, e.ch.tail, e.ch.headIndex, e.ch.tailIndex)) =
      some (1, 1, 0, 128) := by
  decide

/-- **C12**: receivers wait only on an open, drained channel.  In every
reachable execution, if the wait list is non-empty then the channel is not
closed, the emptiness test of `Receive` holds, no slot is pending in the buffer
and every value sent has been delivered. -/
theorem C12_waiters_only_when_open_and_drained (e : Exec T) (h : ReachableExec e)
    (hw : e.ch.waitList ≠ none) :
    e.ch.closed = false ∧ (e.ch.head = e.ch.tail ∧ e.ch.headIndex = e.ch.tailIndex) ∧
      pending e.ch = [] ∧ e.sent.Sublist e.delivered := by
  have hI := ExecInv_of_reachable h
  cases hl : e.ch.waitList with
  | none => exact absurd hl hw
  | some a =>
    have ho := hI.wait.open_empty a hl
    have hp := pending_nil_of_waiting hI.buf hI.wait hl
    have hc := hI.conserved
    rw [hp, List.append_nil] at hc
    exact ⟨ho.1, ⟨ho.2.2, ho.2.1⟩, hp, hc⟩

/-- Witness for **C12**: two receivers parked on a fresh channel. -/
theorem C12_waiters_only_when_open_and_drained_witness :
    ReachableExec parkedExample ∧ parkedExample.ch.waitList ≠ none ∧
    parkedExample.ch.closed = false ∧
    (parkedExample.ch.head = parkedExample.ch.tail ∧
      parkedExample.ch.headIndex = parkedExample.ch.tailIndex) ∧
    pending parkedExample.ch = [] ∧ parkedExample.sent.Sublist parkedExample.delivered :=
  have hr : ReachableExec parkedExample := ⟨[Op.receive, Op.receive], rfl⟩
  have hw : parkedExample.ch.waitList ≠ none := by decide
  ⟨hr, hw, C12_waiters_only_when_open_and_drained parkedExample hr hw⟩

/-- A step taken on a closed channel leaves it closed. -/
theorem step_closed {e : Exec T} (h : ExecInv e) (hc : e.ch.closed = true) (op : Op T) :
    ∃ e', step e op = some e' ∧ ExecInv e' ∧ e'.ch.closed = true := by
  have hB := h.buf
  have hW := h.wait
  cases op with
  | send v =>
    have hs := step_send_panicked (Send_closed hc v)
    exact ⟨_, hs, ExecInv_step h hs, hc⟩
  | receive =>
    by_cases hemp : e.ch.headIndex = e.ch.tailIndex ∧ e.ch.head = e.ch.tail
    · have hs := step_receive_returned (Receive_closed_empty hc hemp.1 hemp.2)
      exact ⟨_, hs, ExecInv_step h hs, hc⟩
    · have hne : pending e.ch ≠ [] := fun c => hemp ((pending_eq_nil_iff hB).mp c)
      obtain ⟨v, rest, hp⟩ := List.exists_cons_of_ne_nil hne
      obtain ⟨ch', hR, _, _, _, _, _, _, _, hcl, _⟩ := Receive_buffer hB hp
      have hs := step_receive_returned hR
      exact ⟨_, hs, ExecInv_step h hs, by rw [← hc]; exact hcl⟩
  | close =>
    obtain ⟨ch', hC, _, hcl, _⟩ := Close_spec hW
    have hs := step_close hC
    exact ⟨_, hs, ExecInv_step h hs, hcl⟩
  | wake w =>
    cases hr : ReceiveWake e.ch w with
    | none =>
      have hs := step_wake_none hr
      exact ⟨_, hs, ExecInv_step h hs, hc⟩
    | some r =>
      obtain ⟨ch', v, ok⟩ := r
      obtain ⟨_, _, _, hch⟩ := ReceiveWake_spec hW hr
      have hs := step_wake_some hr
      exact ⟨_, hs, ExecInv_step h hs, by rw [hch]; exact hc⟩

theorem runFrom_closed (ops : List (Op T)) : ∀ {e : Exec T}, ExecInv e → e.ch.closed = true →
    ∃ e', runFrom e ops = some e' ∧ e'.ch.closed = true := by
  induction ops with
  | nil => intro e _ hc; exact ⟨e, rfl, hc⟩
  | cons op ops ih =>
    intro e h hc
    obtain ⟨e1, h1, h2, h3⟩ := step_closed h hc op
    obtain ⟨e2, h4, h5⟩ := ih h2 h3
    exact ⟨e2, by simp only [runFrom, h1]; exact h4, h5⟩

/-- **C14**: the closed flag never reverts.  From every reachable execution
whose channel is closed, every further sequence of steps (`Send`, which
panics; `Receive`; `Close`; resumption of a parked `Receive`) runs to the end
and leaves `closed = true`. -/
theorem C14_closed_stays_closed (e : Exec T) (h : ReachableExec e) (hc : e.ch.closed = true)
    (ops : List (Op T)) :
    ∃ e', runFrom e ops = some e' ∧ e'.ch.closed = true :=
  runFrom_closed ops (ExecInv_of_reachable h) hc

/-- Witness for **C14**: a closed channel, then `Send(1); Receive(); Close()`. -/
theorem C14_closed_stays_closed_witness :
    ReachableExec drainedExample ∧ drainedExample.ch.closed = true ∧
    ∃ e', runFrom drainedExample [Op.send 1, Op.receive, Op.close] = some e' ∧
      e'.ch.closed = true :=
  have hr : ReachableExec drainedExample := ⟨[Op.send 7, Op.close, Op.receive], rfl⟩
  ⟨hr, rfl, C14_closed_stays_closed drainedExample hr rfl [Op.send 1, Op.receive, Op.close]⟩

theorem BufInv_of_reachable {s : unboundedChannel T} (h : Reachable s) : BufInv s := by
  obtain ⟨e, he, rfl⟩ := h
  exact (ExecInv_of_reachable he).buf

/-- **C18**: the two indices stay inside the chunk array.  In every reachable
state `headIndex < 128` and `tailIndex ≤ 128`, the head and tail references
point to allocated chunks whose `items` have 128 slots, and the index used by
the write in `Send` after the full-tail check (0 on a fresh chunk, `tailIndex`
otherwise) is below 128: the read `ch.head.items[headIndex]` and the write
`ch.tail.items[tailIndex]` are in bounds. -/
theorem C18_indices_in_bounds (s : unboundedChannel T) (h : Reachable s) :
    chunkCap = 128 ∧ s.headIndex < chunkCap ∧ s.tailIndex ≤ chunkCap ∧
    s.head < s.chunks.length ∧ s.tail < s.chunks.length ∧
    (chunkAt s.chunks s.head).items.length = chunkCap ∧
    (chunkAt s.chunks s.tail).items.length = chunkCap ∧
    (emptyChunk T).items.length = chunkCap ∧
    (if s.tailIndex = chunkCap then 0 else s.tailIndex) < chunkCap := by
  have hB := BufInv_of_reachable h
  have h0 := hB.tail_last
  have h2 := hB.head_le
  have h4 := hB.tailIndex_le
  refine ⟨rfl, hB.headIndex_lt, h4, by omega, by omega, hB.items_len _ (by omega),
    hB.items_len _ (by omega), emptyChunk_items_length, ?_⟩
  by_cases c : s.tailIndex = chunkCap
  · rw [if_pos c]; decide
  · rw [if_neg c]; omega

/-- Witness for **C18**: the state after one `Receive` on a fresh channel. -/
theorem C18_indices_in_bounds_witness :
    Reachable (Receive (New Nat)).1 ∧ (Receive (New Nat)).1.headIndex < chunkCap ∧
    (Receive (New Nat)).1.tailIndex ≤ chunkCap :=
  have hr : Reachable (Receive (New Nat)).1 :=
    ⟨⟨(Receive (New Nat)).1, [], [], [Obs.recvBlocked 0]⟩, ⟨[Op.receive], rfl⟩, rfl⟩
  have hx := C18_indices_in_bounds (Receive (New Nat)).1 hr
  ⟨hr, hx.2.1, hx.2.2.1⟩

theorem getLast?_range'_one (a n : Nat) :
    (List.range' a (n + 1)).getLast? = some (a + n) := by
  rw [List.range'_1_concat, List.getLast?_append]
  simp

/-- **C19**: `lastWaiter` is the end of the wait list.  In every reachable open
state, `lastWaiter` is nil exactly when `waitList` is nil; when it is not nil
it is the last node of the chain that starts at `waitList` and its `next` is
nil; and whenever `Receive` parks, the new waiter is appended at the end of
that chain, after all waiters already on it. -/
theorem C19_lastWaiter_is_chain_end (s : unboundedChannel T) (h : Reachable s)
    (hc : s.closed = false) :
    (s.lastWaiter = none ↔ s.waitList = none) ∧
    (∀ l, s.lastWaiter = some l →
      (waitChain s).getLast? = some l ∧ (waiterAt s.waiters l).next = none) ∧
    (∀ s' w, Receive s = (s', RecvOutcome.blocked w) → waitChain s' = waitChain s ++ [w]) := by
  have hW := WaitInv_of_reachable h
  have hB := BufInv_of_reachable h
  have hlast := hW.last hc
  have hsl := waitStart_le hW
  refine ⟨?_, ?_, ?_⟩
  · rw [hlast]
    cases hw : s.waitList with
    | none => simp
    | some a => simp
  · intro l hl
    cases hw : s.waitList with
    | none =>
      rw [hlast, hw] at hl
      simp at hl
    | some a =>
      have ha := hW.head_lt a hw
      have hs := waitStart_some hw
      rw [hlast, hw] at hl
      simp only [reduceCtorEq, if_false, Option.some.injEq] at hl
      subst hl
      constructor
      · rw [waitChain_eq hW, hs]
        have e : s.waiters.length - a = (s.waiters.length - a - 1) + 1 := by omega
        rw [e, getLast?_range'_one]
        congr 1
        omega
      · rw [hW.parked _ (by rw [hs]; omega) (by omega)]
        have : ¬ (s.waiters.length - 1 + 1 < s.waiters.length) := by omega
        simp [parkedWaiter, this]
  · intro s' w hR
    by_cases hemp : s.headIndex = s.tailIndex ∧ s.head = s.tail
    · obtain ⟨ch', hR', hW', _, _, _, _, _, _, hlen, hst, _, _⟩ :=
        Receive_park hW hc hemp.1 hemp.2
      rw [hR'] at hR
      injection hR with e1 e2
      injection e2 with e2
      subst e1
      subst e2
      rw [waitChain_eq hW', waitChain_eq hW, hlen, hst]
      have e : s.waiters.length + 1 - waitStart s = (s.waiters.length - waitStart s) + 1 := by
        omega
      rw [e, List.range'_1_concat]
      congr 2
      omega
    · have hne : pending s ≠ [] := fun c => hemp ((pending_eq_nil_iff hB).mp c)
      obtain ⟨v, rest, hp⟩ := List.exists_cons_of_ne_nil hne
      obtain ⟨ch', hR', _⟩ := Receive_buffer hB hp
      rw [hR'] at hR
      injection hR with _ e2
      cases e2

/-- Witness for **C19**: the state after one `Receive` on a fresh channel. -/
theorem C19_lastWaiter_is_chain_end_witness :
    Reachable (Receive (New Nat)).1 ∧ (Receive (New Nat)).1.closed = false ∧
    ((Receive (New Nat)).1.lastWaiter = none ↔ (Receive (New Nat)).1.waitList = none) ∧
    (waitChain (Receive (New Nat)).1).getLast? = some 0 ∧
    waitChain (Receive (Receive (New Nat)).1).1 = waitChain (Receive (New Nat)).1 ++ [1] :=
  have hr : Reachable (Receive (New Nat)).1 :=
    ⟨⟨(Receive (New Nat)).1, [], [], [Obs.recvBlocked 0]⟩, ⟨[Op.receive], rfl⟩, rfl⟩
  have hx := C19_lastWaiter_is_chain_end (Receive (New Nat)).1 hr rfl
  ⟨hr, rfl, hx.1, (hx.2.1 0 rfl).1, hx.2.2 _ 1 rfl⟩

/-- **C16**: a handoff leaves the buffer alone.  For every reachable open state
whose wait list is non-empty, `Send(v)` completes and leaves the chunk heap,
`head`, `tail`, `headIndex`, `tailIndex` and `closed` unchanged; the wait list
afterwards is the old one without its oldest node, every other waiter is
unchanged, and `lastWaiter` is cleared if the list became empty and unchanged
otherwise. -/
theorem C16_handoff_frame (s : unboundedChannel T) (h : Reachable s) (hc : s.closed = false)
    (hw : s.waitList ≠ none) (v : T) :
    (Send s v).2 = SendOutcome.done ∧
    (Send s v).1.chunks = s.chunks ∧ (Send s v).1.head = s.head ∧ (Send s v).1.tail = s.tail ∧
    (Send s v).1.headIndex = s.headIndex ∧ (Send s v).1.tailIndex = s.tailIndex ∧
    (Send s v).1.closed = s.closed ∧
    (Send s v).1.waiters.length = s.waiters.length ∧
    (waitChain s).head? = s.waitList ∧
    waitChain (Send s v).1 = (waitChain s).tail ∧
    (∀ w, s.waitList ≠ some w → waiterAt (Send s v).1.waiters w = waiterAt s.waiters w) ∧
    ((Send s v).1.waitList = none → (Send s v).1.lastWaiter = none) ∧
    ((Send s v).1.waitList ≠ none → (Send s v).1.lastWaiter = s.lastWaiter) := by
  have hW := WaitInv_of_reachable h
  cases hl : s.waitList with
  | none => exact absurd hl hw
  | some a =>
    have ha := hW.head_lt a hl
    have hs := waitStart_some hl
    obtain ⟨ch', hS, hW', e1, e2, e3, e4, e5, hcl, hlen, hst, _, hoth⟩ :=
      Send_handoff hW hc hl v
    have hlast := hW.last hc
    have hlast' := hW'.last hcl
    rw [hS]
    have hchain : waitChain s = a :: List.range' (a + 1) (s.waiters.length - (a + 1)) := by
      rw [waitChain_eq hW, hs]
      have e : s.waiters.length - a = (s.waiters.length - (a + 1)) + 1 := by omega
      rw [e, List.range'_succ]
    refine ⟨rfl, e1, e2, e3, e4, e5, by rw [hc]; exact hcl, hlen, ?_, ?_, ?_, ?_, ?_⟩
    · rw [hchain]; rfl
    · rw [hchain, waitChain_eq hW', hst, hlen]; rfl
    · intro w hne
      exact hoth w (fun c => hne (by rw [c]))
    · intro hn
      show ch'.lastWaiter = none
      rw [hlast']
      simp [show ch'.waitList = none from hn]
    · intro hn
      show ch'.lastWaiter = s.lastWaiter
      rw [hlast', hlast, hl, hlen]
      simp [show ch'.waitList ≠ none from hn]

/-- Witness for **C16**: `Send(5)` with two receivers parked. -/
theorem C16_handoff_frame_witness :
    Reachable parkedExample.ch ∧ parkedExample.ch.closed = false ∧
    parkedExample.ch.waitList ≠ none ∧
    (Send parkedExample.ch 5).1.chunks = parkedExample.ch.chunks ∧
    waitChain (Send parkedExample.ch 5).1 = (waitChain parkedExample.ch).tail :=
  have hr : Reachable parkedExample.ch :=
    ⟨parkedExample, ⟨[Op.receive, Op.receive], rfl⟩, rfl⟩
  have hw : parkedExample.ch.waitList ≠ none := by decide
  have hx := C16_handoff_frame parkedExample.ch hr rfl hw 5
  ⟨hr, rfl, hw, hx.2.1, hx.2.2.2.2.2.2.2.2.2.1⟩

/-- No step shrinks the waiter heap or moves the start of the wait list backwards. -/
theorem step_waitStart_mono {e : Exec T} (h : ExecInv e) (op : Op T) :
    ∃ e', step e op = some e' ∧ e.ch.waiters.length ≤ e'.ch.waiters.length ∧
      waitStart e.ch ≤ waitStart e'.ch := by
  have hB := h.buf
  have hW := h.wait
  cases op with
  | send v =>
    cases hc : e.ch.closed with
    | true =>
      exact ⟨_, step_send_panicked (Send_closed hc v), Nat.le_refl _, Nat.le_refl _⟩
    | false =>
      cases hw : e.ch.waitList with
      | none =>
        obtain ⟨ch', hS, _, hws, _, _, hwl, _⟩ := Send_buffer hB hc hw v
        refine ⟨_, step_send_done hS, ?_, ?_⟩
        · show e.ch.waiters.length ≤ ch'.waiters.length
          rw [hws]
        · show waitStart e.ch ≤ waitStart ch'
          rw [waitStart_congr hws hwl]
      | some a =>
        obtain ⟨ch', hS, _, _, _, _, _, _, _, hlen, hst, _⟩ := Send_handoff hW hc hw v
        refine ⟨_, step_send_done hS, ?_, ?_⟩
        · show e.ch.waiters.length ≤ ch'.waiters.length
          rw [hlen]
        · show waitStart e.ch ≤ waitStart ch'
          rw [hst, waitStart_some hw]
          exact Nat.le_succ _
  | receive =>
    by_cases hemp : e.ch.headIndex = e.ch.tailIndex ∧ e.ch.head = e.ch.tail
    · cases hc : e.ch.closed with
      | false =>
        obtain ⟨ch', hR, _, _, _, _, _, _, _, hlen, hst, _⟩ :=
          Receive_park hW hc hemp.1 hemp.2
        refine ⟨_, step_receive_blocked hR, ?_, ?_⟩
        · show e.ch.waiters.length ≤ ch'.waiters.length
          rw [hlen]
          exact Nat.le_succ _
        · show waitStart e.ch ≤ waitStart ch'
          rw [hst]
      | true =>
        exact ⟨_, step_receive_returned (Receive_closed_empty hc hemp.1 hemp.2),
          Nat.le_refl _, Nat.le_refl _⟩
    · have hne : pending e.ch ≠ [] := fun c => hemp ((pending_eq_nil_iff hB).mp c)
      obtain ⟨v, rest, hp⟩ := List.exists_cons_of_ne_nil hne
      obtain ⟨ch', hR, _, _, hws, _, _, hwl, _⟩ := Receive_buffer hB hp
      refine ⟨_, step_receive_returned hR, ?_, ?_⟩
      · show e.ch.waiters.length ≤ ch'.waiters.length
        rw [hws]
      · show waitStart e.ch ≤ waitStart ch'
        rw [waitStart_congr hws hwl]
  | close =>
    obtain ⟨ch', hC, _, _, hwl, _, _, _, _, _, _, hlen, _⟩ := Close_spec hW
    refine ⟨_, step_close hC, ?_, ?_⟩
    · show e.ch.waiters.length ≤ ch'.waiters.length
      rw [hlen]
    · show waitStart e.ch ≤ waitStart ch'
      rw [waitStart_none hwl, hlen]
      exact waitStart_le hW
  | wake w =>
    cases hr : ReceiveWake e.ch w with
    | none =>
      exact ⟨_, step_wake_none hr, Nat.le_refl _, Nat.le_refl _⟩
    | some r =>
      obtain ⟨ch', v, ok⟩ := r
      obtain ⟨hw, _, _, hch⟩ := ReceiveWake_spec hW hr
      obtain ⟨_, hs', _⟩ := WaitInv_wake hW hw
      refine ⟨_, step_wake_some hr, ?_, ?_⟩
      · show e.ch.waiters.length ≤ ch'.waiters.length
        rw [hch]
        simp
      · show waitStart e.ch ≤ waitStart ch'
        rw [hch, hs']

/-- On a well-formed channel a waiter has been unlocked once if it lies before
the start of the wait list, and never otherwise. -/
theorem unlocks_eq {ch : unboundedChannel T} (h : WaitInv ch) {w : Nat}
    (hw : w < ch.waiters.length) :
    (waiterAt ch.waiters w).unlocks = if w < waitStart ch then 1 else 0 := by
  by_cases c : w < waitStart ch
  · rw [if_pos c]; exact (h.resolved w c).1
  · rw [if_neg c, h.parked w (by omega) hw]; rfl

/-- **C13**: the wait list holds exactly the unresolved waiters, and a waiter is
released at most once.  In every reachable execution the nodes reachable from
`waitList` are exactly the registered waiters whose mutex has never been
unlocked; every registered waiter has been unlocked at most once; and no
further step (a `Send`, a `Close`, or any other) lowers a waiter's unlock
count or raises it above one, so a released waiter is never released again. -/
theorem C13_waiters_released_at_most_once (e : Exec T) (h : ReachableExec e) :
    (∀ w, w ∈ waitChain e.ch ↔
      (w < e.ch.waiters.length ∧ (waiterAt e.ch.waiters w).unlocks = 0)) ∧
    (∀ w, w < e.ch.waiters.length → (waiterAt e.ch.waiters w).unlocks ≤ 1) ∧
    (∀ op e', step e op = some e' → ∀ w, w < e.ch.waiters.length →
      (waiterAt e.ch.waiters w).unlocks ≤ (waiterAt e'.ch.waiters w).unlocks ∧
      (waiterAt e'.ch.waiters w).unlocks ≤ 1) := by
  have hI := ExecInv_of_reachable h
  have hW := hI.wait
  have hsl := waitStart_le hW
  refine ⟨?_, ?_, ?_⟩
  · intro w
    rw [waitChain_eq hW, List.mem_range'_1]
    constructor
    · intro hw
      have hlt : w < e.ch.waiters.length := by omega
      refine ⟨hlt, ?_⟩
      rw [unlocks_eq hW hlt, if_neg (by omega)]
    · rintro ⟨hlt, hu⟩
      rw [unlocks_eq hW hlt] at hu
      by_cases c : w < waitStart e.ch
      · rw [if_pos c] at hu; cases hu
      · omega
  · intro w hlt
    rw [unlocks_eq hW hlt]
    split <;> omega
  · intro op e' hs w hlt
    obtain ⟨e1, h1, h2, h3⟩ := step_waitStart_mono hI op
    rw [h1] at hs
    injection hs with hs
    subst hs
    have hW' := (ExecInv_step hI h1).wait
    have hlt' : w < e1.ch.waiters.length := by omega
    rw [unlocks_eq hW hlt, unlocks_eq hW' hlt']
    by_cases c : w < waitStart e.ch
    · have c' : w < waitStart e1.ch := by omega
      rw [if_pos c, if_pos c']
      exact ⟨Nat.le_refl _, Nat.le_refl _⟩
    · rw [if_neg c]
      refine ⟨Nat.zero_le _, ?_⟩
      split <;> omega

/-- Witness for **C13**: two parked receivers; both are on the wait list, never
unlocked, and `Close` raises each unlock count to one at most. -/
theorem C13_waiters_released_at_most_once_witness :
    ReachableExec parkedExample ∧
    (1 ∈ waitChain parkedExample.ch ↔
      (1 < parkedExample.ch.waiters.length ∧
        (waiterAt parkedExample.ch.waiters 1).unlocks = 0)) ∧
    (waiterAt parkedExample.ch.waiters 1).unlocks ≤ 1 :=
  have hr : ReachableExec parkedExample := ⟨[Op.receive, Op.receive], rfl⟩
  have hx := C13_waiters_released_at_most_once parkedExample hr
  ⟨hr, hx.1 1, hx.2.1 1 (by decide)⟩

set_option maxRecDepth 200000 in
/-- **C11** (the code departs from the claim): after `Send(1), ..., Send(128)` and
128 calls of `Receive`, no receiver was ever parked (the waiter heap is empty),
so all 128 values sent were written to the buffer and all 128 values delivered
were read from it: the buffer is logically empty.  Yet `head == tail` holds
with `headIndex = 0` and `tailIndex = 128`, so the test
`head == tail && headIndex == tailIndex` is false.  The list gives the numbers
of values sent, delivered and of waiters, then `head`, `tail`, `headIndex`,
`tailIndex`. -/
theorem C11_emptiness_test_false_on_drained_buffer :
    (run (sendOps oneChunk ++ receiveOps Nat 128)).map
        (fun e => ([e.sent.length, e.delivered.length, e.ch.waiters.length,
          e.ch.head, e.ch.tail, e.ch.headIndex, e.ch.tailIndex],
          decide (e.ch.head = e.ch.tail ∧ e.ch.headIndex = e.ch.tailIndex))) =
      some ([128, 128, 0, 1, 1, 0, 128], false) := by
  decide

set_option maxRecDepth 200000 in
/-- **C15** (the code departs from the claim): one producer sends `1, ..., 129`,
one consumer calls `Receive` 129 times, scheduled as 128 sends, 128 receives,
the last send, the last receive.  Every call returns (no receiver is ever
parked); the value `129` is sent once and never received, the value `1` is
sent once and received twice: the received values are not the sent values.
The list gives the numbers of values sent, delivered and of waiters, then how
often `129` was sent and delivered, then how often `1` was sent and delivered. -/
theorem C15_value_lost_and_duplicated :
    (run (sendOps oneChunk ++ receiveOps Nat 128 ++ [Op.send 129, Op.receive])).map
        (fun e => [e.sent.length, e.delivered.length, e.ch.waiters.length,
          e.sent.count 129, e.delivered.count 129, e.sent.count 1, e.delivered.count 1]) =
      some [129, 129, 0, 1, 0, 1, 2] := by
  decide

/-- **C17** (the code departs from the claim): `New(); Receive()` parks one
receiver, then `Close()` returns with `waitList` nil but `lastWaiter` still
pointing to that receiver's node (address 0). -/
theorem C17_close_leaves_lastWaiter :
    (Close (Receive (New Nat)).1).map (fun s => (s.closed, s.waitList, s.lastWaiter)) =
      some (true, none, some 0) := by
  decide

end unbounded
